import Mathlib

/-!
Verification of the zod-fast-check schema-to-generator compiler.

The development shallowly embeds `src/zod-fast-check.ts`: JavaScript values
are the inductive `Value` (numbers as exact rationals, plus an `inf` marker
for `Infinity`), Zod schemas are the inductive `Schema` (each node carries a
numeric identity token standing for JavaScript reference identity), and
fast-check arbitraries are the inductive `Arb` whose producible-value set is
the predicate `Produces`.  The external collaborators (Zod validation,
fast-check generators) are modelled at their documented interfaces:
`safeParse` follows Zod's per-kind validation, and the dedicated format
generators (`fc.uuid` etc.) are modelled as producing exactly the strings the
matching Zod format check accepts.
-/

/-- A JavaScript runtime value, as the library manipulates them.  Numbers are
exact rationals (`inf` stands for `Infinity`); functions are represented by
the constant return value the library's generated functions close over;
promises by their resolved value. -/
inductive Value where
  | str (s : String)
  | num (q : Rat)
  | inf
  | bigint (n : Int)
  | bool (b : Bool)
  | date (t : Int)
  | undef
  | null
  | arr (elems : List Value)
  | obj (props : List (String × Value))
  | vmap (entries : List (Value × Value))
  | vset (elems : List Value)
  | func (ret : Value)
  | promise (inner : Value)

mutual

/-- Structural equality of values, embedding JavaScript `SameValueZero` /
`===` as used on generated data (where a compared composite is the very
object the generator produced). -/
def Value.beq : Value → Value → Bool
  | .str a, .str b => a == b
  | .num a, .num b => a == b
  | .inf, .inf => true
  | .bigint a, .bigint b => a == b
  | .bool a, .bool b => a == b
  | .date a, .date b => a == b
  | .undef, .undef => true
  | .null, .null => true
  | .arr a, .arr b => beqValueList a b
  | .obj a, .obj b => beqValueProps a b
  | .vmap a, .vmap b => beqValueEntries a b
  | .vset a, .vset b => beqValueList a b
  | .func a, .func b => a.beq b
  | .promise a, .promise b => a.beq b
  | _, _ => false

def beqValueList : List Value → List Value → Bool
  | [], [] => true
  | a :: as, b :: bs => a.beq b && beqValueList as bs
  | _, _ => false

def beqValueProps : List (String × Value) → List (String × Value) → Bool
  | [], [] => true
  | (k1, v1) :: as, (k2, v2) :: bs => k1 == k2 && v1.beq v2 && beqValueProps as bs
  | _, _ => false

def beqValueEntries : List (Value × Value) → List (Value × Value) → Bool
  | [], [] => true
  | (k1, v1) :: as, (k2, v2) :: bs => k1.beq k2 && v1.beq v2 && beqValueEntries as bs
  | _, _ => false

end

mutual

theorem Value.beq_refl : (v : Value) → v.beq v = true
  | .str a => by simp [Value.beq]
  | .num a => by simp [Value.beq]
  | .inf => by simp [Value.beq]
  | .bigint a => by simp [Value.beq]
  | .bool a => by simp [Value.beq]
  | .date a => by simp [Value.beq]
  | .undef => by simp [Value.beq]
  | .null => by simp [Value.beq]
  | .arr a => by simp [Value.beq, beqValueList_refl a]
  | .obj a => by simp [Value.beq, beqValueProps_refl a]
  | .vmap a => by simp [Value.beq, beqValueEntries_refl a]
  | .vset a => by simp [Value.beq, beqValueList_refl a]
  | .func a => by simp [Value.beq, Value.beq_refl a]
  | .promise a => by simp [Value.beq, Value.beq_refl a]

theorem beqValueList_refl : (l : List Value) → beqValueList l l = true
  | [] => by simp [beqValueList]
  | a :: as => by simp [beqValueList, Value.beq_refl a, beqValueList_refl as]

theorem beqValueProps_refl : (l : List (String × Value)) → beqValueProps l l = true
  | [] => by simp [beqValueProps]
  | (k, v) :: as => by simp [beqValueProps, Value.beq_refl v, beqValueProps_refl as]

theorem beqValueEntries_refl : (l : List (Value × Value)) → beqValueEntries l l = true
  | [] => by simp [beqValueEntries]
  | (k, v) :: as => by
      simp [beqValueEntries, Value.beq_refl k, Value.beq_refl v, beqValueEntries_refl as]

end

/-- JavaScript property access `props[k]` on a plain object: the first
binding of the key, `undefined` when absent. -/
def jsGet (props : List (String × Value)) (k : String) : Value :=
  match props.find? (fun p => p.1 == k) with
  | some p => p.2
  | none => Value.undef

/-- A check recorded on a `ZodString` definition.  `regex` carries the
predicate the compiled regular expression decides. -/
inductive StringCheck where
  | min (value : Nat)
  | max (value : Nat)
  | uuid
  | email
  | url
  | regex (test : String → Bool)

/-- A check recorded on a `ZodNumber` definition.  `finite` and `multipleOf`
exist only in the later Zod versions targeted by the newest revision of the
dispatcher; the older revision's `switch` simply does not match them. -/
inductive NumberCheck where
  | min (value : Rat) (inclusive : Bool)
  | max (value : Rat) (inclusive : Bool)
  | int
  | finite
  | multipleOf (value : Rat)

/-- A value stored in a TypeScript native-enum object: a string or a number. -/
inductive EnumVal where
  | s (v : String)
  | n (v : Int)
deriving DecidableEq

/-- The effect of a `ZodEffects` wrapper: a refinement predicate or a
transformation, run on the inner schema's parse output. -/
inductive Effect where
  | refine (test : Value → Bool)
  | transform (f : Value → Value)

/-- A Zod schema node.  Every constructor's first field is the node's
identity token, standing for the JavaScript object reference the override
map is keyed by.  `foreign` stands for a schema object whose `typeName` is
not a key of `arbitraryBuilders` (not recognised as first-party). -/
inductive Schema where
  | string (id : Nat) (checks : List StringCheck)
  | number (id : Nat) (checks : List NumberCheck)
  | bigint (id : Nat)
  | boolean (id : Nat)
  | date (id : Nat)
  | undef (id : Nat)
  | null (id : Nat)
  | array (id : Nat) (minLength maxLength : Option Nat) (elem : Schema)
  | object (id : Nat) (shape : List (String × Schema))
  | union (id : Nat) (options : List Schema)
  | intersection (id : Nat)
  | tuple (id : Nat) (items : List Schema)
  | record (id : Nat) (valueType : Schema)
  | map (id : Nat) (keyType valueType : Schema)
  | set (id : Nat) (valueType : Schema)
  | function (id : Nat) (returns : Schema)
  | lazy (id : Nat)
  | literal (id : Nat) (value : Value)
  | enum (id : Nat) (values : List String)
  | nativeEnum (id : Nat) (values : List (String × EnumVal))
  | promise (id : Nat) (inner : Schema)
  | any (id : Nat)
  | unknown (id : Nat)
  | never (id : Nat)
  | void (id : Nat)
  | optional (id : Nat) (inner : Schema)
  | nullable (id : Nat) (inner : Schema)
  | defaulted (id : Nat) (inner : Schema) (defaultValue : Value)
  | effects (id : Nat) (inner : Schema) (effect : Effect)
  | foreign (id : Nat) (ctorName : String)

/-- The identity token of a schema node (its object reference). -/
def Schema.id : Schema → Nat
  | .string i _ => i
  | .number i _ => i
  | .bigint i => i
  | .boolean i => i
  | .date i => i
  | .undef i => i
  | .null i => i
  | .array i _ _ _ => i
  | .object i _ => i
  | .union i _ => i
  | .intersection i => i
  | .tuple i _ => i
  | .record i _ => i
  | .map i _ _ => i
  | .set i _ => i
  | .function i _ => i
  | .lazy i => i
  | .literal i _ => i
  | .enum i _ => i
  | .nativeEnum i _ => i
  | .promise i _ => i
  | .any i => i
  | .unknown i => i
  | .never i => i
  | .void i => i
  | .optional i _ => i
  | .nullable i _ => i
  | .defaulted i _ _ => i
  | .effects i _ _ => i
  | .foreign i _ => i

/-- The `_def.typeName` tag of a schema node (for `foreign`, the name of the
constructor, which is all `inputWithPath` ever reads off such a schema). -/
def Schema.typeName : Schema → String
  | .string _ _ => "ZodString"
  | .number _ _ => "ZodNumber"
  | .bigint _ => "ZodBigInt"
  | .boolean _ => "ZodBoolean"
  | .date _ => "ZodDate"
  | .undef _ => "ZodUndefined"
  | .null _ => "ZodNull"
  | .array _ _ _ _ => "ZodArray"
  | .object _ _ => "ZodObject"
  | .union _ _ => "ZodUnion"
  | .intersection _ => "ZodIntersection"
  | .tuple _ _ => "ZodTuple"
  | .record _ _ => "ZodRecord"
  | .map _ _ _ => "ZodMap"
  | .set _ _ => "ZodSet"
  | .function _ _ => "ZodFunction"
  | .lazy _ => "ZodLazy"
  | .literal _ _ => "ZodLiteral"
  | .enum _ _ => "ZodEnum"
  | .nativeEnum _ _ => "ZodNativeEnum"
  | .promise _ _ => "ZodPromise"
  | .any _ => "ZodAny"
  | .unknown _ => "ZodUnknown"
  | .never _ => "ZodNever"
  | .void _ => "ZodVoid"
  | .optional _ _ => "ZodOptional"
  | .nullable _ _ => "ZodNullable"
  | .defaulted _ _ _ => "ZodDefault"
  | .effects _ _ _ => "ZodEffects"
  | .foreign _ n => n

/-- Hexadecimal digit (lower case, as both generators and checks use). -/
def isHexDigit (c : Char) : Bool :=
  c.isDigit || (('a' ≤ c) && (c ≤ 'f'))

/-- The 8-4-4-4-12 hyphenated hexadecimal UUID shape.  `fc.uuid()` produces
exactly such strings and the Zod `uuid` check accepts them; both collaborators
are external to this library, so one shared predicate models the interface. -/
def isUuidString (s : String) : Bool :=
  let cs := s.data
  cs.length == 36 &&
    (List.range 36).all (fun i =>
      let c := cs.getD i ' '
      if i == 8 || i == 13 || i == 18 || i == 23 then c == '-' else isHexDigit c)

/-- Email shape shared by `fc.emailAddress()` and the Zod `email` check
(external collaborators modelled at their common interface). -/
def isEmailString (s : String) : Bool :=
  match s.splitOn "@" with
  | [local_, domain] => !local_.isEmpty && !domain.isEmpty && domain.contains '.'
  | _ => false

/-- Web-URL shape shared by `fc.webUrl()` and the Zod `url` check. -/
def isWebUrlString (s : String) : Bool :=
  (s.startsWith "http://" && s.length > 7) || (s.startsWith "https://" && s.length > 8)

/-- Whether a string value passes one Zod string check. -/
def passStringCheck (s : String) : StringCheck → Bool
  | .min n => n ≤ s.length
  | .max n => s.length ≤ n
  | .uuid => isUuidString s
  | .email => isEmailString s
  | .url => isWebUrlString s
  | .regex t => t s

/-- Whether a number value (`none` = `Infinity`) passes one Zod number
check.  `Infinity` satisfies every `min`, no `max`, and is neither an
integer, finite, nor a multiple of anything. -/
def passNumberCheck (q : Option Rat) : NumberCheck → Bool
  | .min v inclusive =>
      match q with
      | some q => if inclusive then v ≤ q else v < q
      | none => true
  | .max v inclusive =>
      match q with
      | some q => if inclusive then q ≤ v else q < v
      | none => false
  | .int =>
      match q with
      | some q => q.den == 1
      | none => false
  | .finite => q.isSome
  | .multipleOf v =>
      match q with
      | some q => v != 0 && (q / v).den == 1
      | none => false

/-- The property key a native-enum value indexes back into the object with
(`obj[obj[key]]`): a number is coerced to its decimal string. -/
def EnumVal.key : EnumVal → String
  | .s v => v
  | .n v => toString v

/-- The runtime value a native-enum entry holds. -/
def EnumVal.toValue : EnumVal → Value
  | .s v => .str v
  | .n v => .num v

/-- `obj[k]` on a native-enum object. -/
def lookupEnum (obj : List (String × EnumVal)) (k : String) : Option EnumVal :=
  (obj.find? (fun p => p.1 == k)).map (fun p => p.2)

/-- The valid values of a native enum: entries whose value does not index a
numeric entry (which would be a TypeScript reverse mapping).  This helper
is copied in the source from Zod itself, so the same definition serves the
generator and the validator. -/
def getValidEnumValues (obj : List (String × EnumVal)) : List EnumVal :=
  (obj.map Prod.fst).filterMap (fun k =>
    match lookupEnum obj k with
    | none => none
    | some v =>
      match lookupEnum obj v.key with
      | some (.n _) => none
      | _ => some v)

theorem sizeOf_jsGet (props : List (String × Value)) (k : String) :
    sizeOf (jsGet props k) ≤ sizeOf props := by
  unfold jsGet
  cases h : props.find? (fun p => p.1 == k) with
  | none =>
    have h1 : (1 : Nat) ≤ sizeOf props := by cases props <;> simp_arith
    simpa using h1
  | some p =>
    have hm : p ∈ props := List.mem_of_find?_eq_some h
    have h1 : sizeOf p < sizeOf props := List.sizeOf_lt_of_mem hm
    obtain ⟨a, b⟩ := p
    simp only [Prod.mk.sizeOf_spec] at h1
    show sizeOf b ≤ sizeOf props
    omega

mutual

/-- Zod validation, `schema.safeParse(value)`: `some data` embeds
`{ success: true, data }`, `none` embeds a failed parse.  Kinds the
dispatcher never compiles (lazy, intersection, never, foreign) fall to the
final catch-all; no theorem relies on their validation behaviour. -/
def safeParse : Schema → Value → Option Value
  | .string _ checks, .str s =>
      if checks.all (passStringCheck s) then some (.str s) else none
  | .number _ checks, .num q =>
      if checks.all (passNumberCheck (some q)) then some (.num q) else none
  | .number _ checks, .inf =>
      if checks.all (passNumberCheck none) then some .inf else none
  | .bigint _, .bigint n => some (.bigint n)
  | .boolean _, .bool b => some (.bool b)
  | .date _, .date t => some (.date t)
  | .undef _, .undef => some .undef
  | .null _, .null => some .null
  | .array _ minL maxL elem, .arr l =>
      if (match minL with | some m => decide (m ≤ l.length) | none => true)
          && (match maxL with | some m => decide (l.length ≤ m) | none => true) then
        (parseElems elem l).map .arr
      else none
  | .object _ shape, .obj props => (parseShape shape props).map .obj
  | .union _ options, v => parseFirst options v
  | .tuple _ items, .arr l =>
      if l.length == items.length then (parseItems items l).map .arr else none
  | .record _ valueType, .obj props => (parseProps valueType props).map .obj
  | .map _ keyType valueType, .vmap entries =>
      (parseEntries keyType valueType entries).map .vmap
  | .set _ valueType, .vset elems => (parseElems valueType elems).map .vset
  | .function _ _, .func r => some (.func r)
  | .literal _ litv, v => if litv.beq v then some v else none
  | .enum _ values, .str s => if values.contains s then some (.str s) else none
  | .nativeEnum _ obj, v =>
      if (getValidEnumValues obj).any (fun ev => ev.toValue.beq v) then some v else none
  | .promise _ _, .promise x => some (.promise x)
  | .any _, v => some v
  | .unknown _, v => some v
  | .void _, .undef => some .undef
  | .optional _ _, .undef => some .undef
  | .optional _ inner, v => safeParse inner v
  | .nullable _ _, .null => some .null
  | .nullable _ inner, v => safeParse inner v
  | .defaulted _ inner dv, .undef => safeParse inner dv
  | .defaulted _ inner _, v => safeParse inner v
  | .effects _ inner eff, v =>
      match safeParse inner v with
      | none => none
      | some d =>
        match eff with
        | .refine t => if t d then some d else none
        | .transform f => some (f d)
  | _, _ => none
termination_by s v => sizeOf s + sizeOf v
decreasing_by
  all_goals simp_wf
  all_goals omega

/-- Parse every element of a list against one schema (array, set). -/
def parseElems (sch : Schema) : List Value → Option (List Value)
  | [] => some []
  | v :: rest => do
      let pv ← safeParse sch v
      let prest ← parseElems sch rest
      pure (pv :: prest)
termination_by l => sizeOf sch + sizeOf l
decreasing_by
  all_goals simp_wf
  all_goals omega

/-- Parse an object against a shape: each declared property's value (or
`undefined` when absent) against its sub-schema, unknown keys stripped. -/
def parseShape : List (String × Schema) → List (String × Value) →
    Option (List (String × Value))
  | [], _ => some []
  | (k, sch) :: rest, props => do
      let pv ← safeParse sch (jsGet props k)
      let prest ← parseShape rest props
      pure ((k, pv) :: prest)
termination_by shape props => sizeOf shape + sizeOf props
decreasing_by
  all_goals simp_wf
  all_goals first
    | omega
    | (have hsz := sizeOf_jsGet props k; omega)

/-- Union parsing: the first option to accept the value wins. -/
def parseFirst : List Schema → Value → Option Value
  | [], _ => none
  | o :: rest, v =>
      match safeParse o v with
      | some d => some d
      | none => parseFirst rest v
termination_by options v => sizeOf options + sizeOf v
decreasing_by
  all_goals simp_wf
  all_goals omega

/-- Tuple parsing: positional, arity already checked by the caller. -/
def parseItems : List Schema → List Value → Option (List Value)
  | [], [] => some []
  | sch :: schs, v :: vs => do
      let pv ← safeParse sch v
      let prest ← parseItems schs vs
      pure (pv :: prest)
  | _, _ => none
termination_by items l => sizeOf items + sizeOf l
decreasing_by
  all_goals simp_wf
  all_goals omega

/-- Record parsing: every property value against the value schema. -/
def parseProps (sch : Schema) : List (String × Value) →
    Option (List (String × Value))
  | [] => some []
  | (k, v) :: rest => do
      let pv ← safeParse sch v
      let prest ← parseProps sch rest
      pure ((k, pv) :: prest)
termination_by l => sizeOf sch + sizeOf l
decreasing_by
  all_goals simp_wf
  all_goals omega

/-- Map parsing: every entry's key and value against their schemas. -/
def parseEntries (kSch vSch : Schema) : List (Value × Value) →
    Option (List (Value × Value))
  | [] => some []
  | (k, v) :: rest => do
      let pk ← safeParse kSch k
      let pv ← safeParse vSch v
      let prest ← parseEntries kSch vSch rest
      pure ((pk, pv) :: prest)
termination_by l => sizeOf kSch + sizeOf vSch + sizeOf l
decreasing_by
  all_goals simp_wf
  all_goals omega

end

/-- A fast-check arbitrary, as the library composes them: primitive
generators, combinators, and the library's monitored filter
(`arbitrary.filter(throwIfSuccessRateBelow(rate, predicate, path))`),
which records the rate, predicate and path it was created with. -/
inductive Arb where
  | fcString (minLength maxLength : Nat)
  | fcInteger (min max : Rat)
  | fcDouble (min max : Rat)
  | fcBigInt
  | fcBoolean
  | fcDate
  | fcConstant (v : Value)
  | fcAnything
  | fcUuid
  | fcEmailAddress
  | fcWebUrl
  | fcArray (elem : Arb) (minLength maxLength : Nat)
  | fcRecord (props : List (String × Arb))
  | fcOneof (alts : List Arb)
  | fcTuple (items : List Arb)
  | fcDictionary (key value : Arb)
  | fcSet (elem : Arb)
  | fcOption (inner : Arb) (nil : Value) (freq : Nat)
  | mapArb (f : Value → Value) (inner : Arb)
  | filterMonitor (rate : Rat) (pred : Value → Bool) (path : String) (inner : Arb)

mutual

/-- The set of values an arbitrary can produce.  Combinators follow the
fast-check documentation: `fcInteger` produces the integers within its
(possibly fractional) bounds, `fcOption` produces the nil value or an inner
value, a monitored filter produces exactly the inner values its predicate
accepts. -/
inductive Produces : Arb → Value → Prop where
  | string (minL maxL : Nat) (s : String) :
      minL ≤ s.length → s.length ≤ maxL → Produces (.fcString minL maxL) (.str s)
  | integer (mn mx : Rat) (n : Int) :
      mn ≤ (n : Rat) → (n : Rat) ≤ mx → Produces (.fcInteger mn mx) (.num n)
  | double (mn mx : Rat) (q : Rat) :
      mn ≤ q → q ≤ mx → Produces (.fcDouble mn mx) (.num q)
  | bigint (n : Int) : Produces .fcBigInt (.bigint n)
  | boolean (b : Bool) : Produces .fcBoolean (.bool b)
  | date (t : Int) : Produces .fcDate (.date t)
  | constant (v : Value) : Produces (.fcConstant v) v
  | anything (v : Value) : Produces .fcAnything v
  | uuid (s : String) : isUuidString s = true → Produces .fcUuid (.str s)
  | email (s : String) : isEmailString s = true → Produces .fcEmailAddress (.str s)
  | webUrl (s : String) : isWebUrlString s = true → Produces .fcWebUrl (.str s)
  | array (e : Arb) (mn mx : Nat) (l : List Value) :
      mn ≤ l.length → l.length ≤ mx → ProducesAll e l →
      Produces (.fcArray e mn mx) (.arr l)
  | record (props : List (String × Arb)) (kvs : List (String × Value)) :
      ProducesProps props kvs → Produces (.fcRecord props) (.obj kvs)
  | oneof (alts : List Arb) (a : Arb) (v : Value) :
      a ∈ alts → Produces a v → Produces (.fcOneof alts) v
  | tuple (items : List Arb) (l : List Value) :
      ProducesList items l → Produces (.fcTuple items) (.arr l)
  | dictionary (k v : Arb) (kvs : List (String × Value)) :
      ProducesDict k v kvs → Produces (.fcDictionary k v) (.obj kvs)
  | setArb (e : Arb) (l : List Value) :
      ProducesAll e l → Produces (.fcSet e) (.arr l)
  | optionNil (inner : Arb) (nil : Value) (freq : Nat) :
      Produces (.fcOption inner nil freq) nil
  | optionVal (inner : Arb) (nil : Value) (freq : Nat) (v : Value) :
      Produces inner v → Produces (.fcOption inner nil freq) v
  | mapped (f : Value → Value) (inner : Arb) (u : Value) :
      Produces inner u → Produces (.mapArb f inner) (f u)
  | filtered (rate : Rat) (pred : Value → Bool) (path : String) (inner : Arb) (v : Value) :
      Produces inner v → pred v = true →
      Produces (.filterMonitor rate pred path inner) v

/-- Pointwise production of a value list by an arbitrary list (tuples). -/
inductive ProducesList : List Arb → List Value → Prop where
  | nil : ProducesList [] []
  | cons (a : Arb) (v : Value) (as_ : List Arb) (vs : List Value) :
      Produces a v → ProducesList as_ vs → ProducesList (a :: as_) (v :: vs)

/-- Production of every element of a list by one arbitrary (arrays, sets). -/
inductive ProducesAll : Arb → List Value → Prop where
  | nil (a : Arb) : ProducesAll a []
  | cons (a : Arb) (v : Value) (vs : List Value) :
      Produces a v → ProducesAll a vs → ProducesAll a (v :: vs)

/-- Production of a record: same keys in order, each value by its arbitrary. -/
inductive ProducesProps : List (String × Arb) → List (String × Value) → Prop where
  | nil : ProducesProps [] []
  | cons (k : String) (a : Arb) (v : Value) (ps : List (String × Arb))
      (kvs : List (String × Value)) :
      Produces a v → ProducesProps ps kvs → ProducesProps ((k, a) :: ps) ((k, v) :: kvs)

/-- Production of a dictionary: each key by the key arbitrary (a string),
each value by the value arbitrary. -/
inductive ProducesDict : Arb → Arb → List (String × Value) → Prop where
  | nil (k v : Arb) : ProducesDict k v []
  | cons (ka va : Arb) (k : String) (v : Value) (kvs : List (String × Value)) :
      Produces ka (.str k) → Produces va v → ProducesDict ka va kvs →
      ProducesDict ka va ((k, v) :: kvs)

end

/-- The minimum acceptance rate of a monitored filter (`0.01` in the source,
exact here). -/
def MIN_SUCCESS_RATE : Rat := 1 / 100

/-- The message of a `ZodFastCheckUnsupportedSchemaError`: the empty root
path is rendered as a dot. -/
def unsupportedMessage (schemaTypeName path : String) : String :=
  "Unable to generate valid values for Zod schema. " ++ schemaTypeName ++
    " schemas are not supported (at path '" ++ (if path = "" then "." else path) ++ "')."

/-- The message of a `ZodFastCheckGenerationError` (verbatim from the
source, including its grammatical slip); the empty root path is rendered
as a dot. -/
def generationErrorMessage (path : String) : String :=
  "Unable to generate valid values for Zod schema. An override is must be provided " ++
    "for the schema at path '" ++ (if path = "" then "." else path) ++ "'."

/-- `filterArbitraryBySchema`: filter an arbitrary by the schema's own
validation under the success-rate monitor. -/
def filterArbitraryBySchema (arbitrary : Arb) (schema : Schema) (path : String) : Arb :=
  .filterMonitor MIN_SUCCESS_RATE (fun value => (safeParse schema value).isSome)
    path arbitrary

/-- The `ZodString` builder's check loop, with the `minLength`, `maxLength`
and `hasRegexCheck` accumulators; a format check returns its dedicated
generator at once, abandoning the loop. -/
def buildStringLoop (schema : Schema) (path : String) :
    List StringCheck → Nat → Option Nat → Bool → Arb
  | [], minLength, maxLength, hasRegexCheck =>
      let maxL := match maxLength with | some m => m | none => 2 * minLength + 10
      let unfiltered := Arb.fcString minLength maxL
      if hasRegexCheck then filterArbitraryBySchema unfiltered schema path
      else unfiltered
  | .min v :: rest, minLength, maxLength, hr =>
      buildStringLoop schema path rest (max minLength v) maxLength hr
  | .max v :: rest, minLength, maxLength, hr =>
      buildStringLoop schema path rest minLength
        (some (match maxLength with | some m => min m v | none => v)) hr
  | .uuid :: _, _, _, _ => .fcUuid
  | .email :: _, _, _, _ => .fcEmailAddress
  | .url :: _, _, _, _ => .fcWebUrl
  | .regex _ :: rest, minLength, maxLength, _ =>
      buildStringLoop schema path rest minLength maxLength true

/-- The `ZodString` builder of the older dispatcher revision. -/
def ZodStringBuilder (schema : Schema) (checks : List StringCheck) (path : String) : Arb :=
  buildStringLoop schema path checks 0 none false

/-- The `ZodNumber` builder's check loop of the older dispatcher revision.
Its source `switch` has no `break` between the `max` and `int` cases, so a
`max` check falls through and also sets `isInt`; the translation makes that
fall-through explicit by passing `true` for the accumulator. -/
def buildNumberLoop : List NumberCheck → Rat → Rat → Bool → Arb
  | [], mn, mx, isInt => if isInt then .fcInteger mn mx else .fcDouble mn mx
  | .min v inclusive :: rest, mn, mx, isInt =>
      buildNumberLoop rest (max mn (if inclusive then v else v + 1 / 1000)) mx isInt
  | .max v inclusive :: rest, mn, mx, _ =>
      buildNumberLoop rest mn (min mx (if inclusive then v else v - 1 / 1000)) true
  | .int :: rest, mn, mx, _ => buildNumberLoop rest mn mx true
  | _ :: rest, mn, mx, isInt => buildNumberLoop rest mn mx isInt

/-- The `ZodNumber` builder of the older dispatcher revision. -/
def ZodNumberBuilder (checks : List NumberCheck) : Arb :=
  buildNumberLoop checks (-(2 ^ 64)) (2 ^ 64) false

/-- `map.set(k, v)` semantics of a JavaScript `Map` under construction:
replace the value of an existing key, else append. -/
def jsMapSetEntry (m : List (Value × Value)) (k v : Value) : List (Value × Value) :=
  if m.any (fun e => e.1.beq k) then
    m.map (fun e => if e.1.beq k then (e.1, v) else e)
  else m ++ [(k, v)]

/-- One step of `new Map(entries)`: a two-element array entry is set into
the map under construction, anything else is ignored. -/
def jsNewMapStep (m : List (Value × Value)) (e : Value) : List (Value × Value) :=
  match e with
  | .arr [k, v] => jsMapSetEntry m k v
  | _ => m

/-- `new Map(entries)` on a generated array of two-element arrays. -/
def jsNewMap : Value → Value
  | .arr entries => .vmap (entries.foldl jsNewMapStep [])
  | _ => .vmap []

/-- `set.add(v)` semantics of a JavaScript `Set` under construction. -/
def jsSetInsert (l : List Value) (v : Value) : List Value :=
  if l.any (fun e => e.beq v) then l else l ++ [v]

/-- `new Set(members)` on a generated array. -/
def jsNewSet : Value → Value
  | .arr elems => .vset (elems.foldl jsSetInsert [])
  | _ => .vset []

/-- The overrides map of a compiler instance: JavaScript `Map` keyed by
schema object identity.  Entries are the ready-made arbitraries; a
lazily-evaluated factory is applied at lookup in the source and adds
nothing to the identity-resolution logic. -/
abbrev OverrideMap := List (Nat × Arb)

/-- `overrides.get(schema)`. -/
def OverrideMap.get (ov : OverrideMap) (id : Nat) : Option Arb :=
  (ov.find? (fun e => e.1 == id)).map (fun e => e.2)

/-- `overrides.set(schema, arbitrary)`: replace an existing key's value,
else append (JavaScript `Map` insertion order). -/
def OverrideMap.set (ov : OverrideMap) (id : Nat) (a : Arb) : OverrideMap :=
  if ov.any (fun e => e.1 == id) then
    ov.map (fun e => if e.1 == id then (e.1, a) else e)
  else ov ++ [(id, a)]

mutual

/-- `inputWithPath`: consult the override map first (by object identity),
then dispatch on the type tag.  An unsupported kind raises the
unsupported-schema error, embedded as `Except.error` of its message. -/
def inputWithPath (ov : OverrideMap) (s : Schema) (path : String) :
    Except String Arb :=
  match OverrideMap.get ov s.id with
  | some arb => .ok arb
  | none => arbitraryBuilder ov s path
termination_by 2 * sizeOf s + 1
decreasing_by
  all_goals simp_wf

/-- The per-kind builders (`arbitraryBuilders` in the source, older
revision), recursing through `inputWithPath` exactly as the source passes
`this.inputWithPath.bind(this)` as `recurse`. -/
def arbitraryBuilder (ov : OverrideMap) (s : Schema) (path : String) :
    Except String Arb :=
  match s with
  | .string _ checks => .ok (ZodStringBuilder s checks path)
  | .number _ checks => .ok (ZodNumberBuilder checks)
  | .bigint _ => .ok .fcBigInt
  | .boolean _ => .ok .fcBoolean
  | .date _ => .ok .fcDate
  | .undef _ => .ok (.fcConstant .undef)
  | .null _ => .ok (.fcConstant .null)
  | .array _ minL maxL elem => do
      let e ← inputWithPath ov elem (path ++ "[*]")
      .ok (.fcArray e (match minL with | some m => m | none => 0)
        (min (match maxL with | some m => m | none => 10) 10))
  | .object _ shape => do
      let props ← buildShape ov shape path
      .ok (.fcRecord props)
  | .union _ options => do
      let alts ← buildOptions ov options path
      .ok (.fcOneof alts)
  | .intersection _ => .error (unsupportedMessage "Intersection" path)
  | .tuple _ items => do
      let arbs ← buildItems ov items path 0
      .ok (.fcTuple arbs)
  | .record _ valueType => do
      let v ← inputWithPath ov valueType (path ++ "[*]")
      .ok (.fcDictionary (.fcString 0 10) v)
  | .map _ keyType valueType => do
      let k ← inputWithPath ov keyType (path ++ ".(key)")
      let v ← inputWithPath ov valueType (path ++ ".(value)")
      .ok (.mapArb jsNewMap (.fcArray (.fcTuple [k, v]) 0 10))
  | .set _ valueType => do
      let v ← inputWithPath ov valueType (path ++ ".(value)")
      .ok (.mapArb jsNewSet (.fcSet v))
  | .function _ returns => do
      let r ← inputWithPath ov returns (path ++ ".(return type)")
      .ok (.mapArb Value.func r)
  | .lazy _ => .error (unsupportedMessage "Lazy" path)
  | .literal _ v => .ok (.fcConstant v)
  | .enum _ values => .ok (.fcOneof (values.map (fun s => .fcConstant (.str s))))
  | .nativeEnum _ obj =>
      .ok (.fcOneof ((getValidEnumValues obj).map (fun ev => .fcConstant ev.toValue)))
  | .promise _ inner => do
      let i ← inputWithPath ov inner (path ++ ".(resolved type)")
      .ok (.mapArb Value.promise i)
  | .any _ => .ok .fcAnything
  | .unknown _ => .ok .fcAnything
  | .never _ => .error (unsupportedMessage "Never" path)
  | .void _ => .ok (.fcConstant .undef)
  | .optional _ inner => do
      let i ← inputWithPath ov inner path
      .ok (.fcOption i .undef 2)
  | .nullable _ inner => do
      let i ← inputWithPath ov inner path
      .ok (.fcOption i .null 2)
  | .defaulted _ inner _ => do
      let i ← inputWithPath ov inner path
      .ok (.fcOneof [.fcConstant .undef, i])
  | .effects _ inner _ => do
      let pre ← inputWithPath ov inner path
      .ok (filterArbitraryBySchema pre s path)
  | .foreign _ name => .error (unsupportedMessage ("'" ++ name ++ "'") path)
termination_by 2 * sizeOf s
decreasing_by
  all_goals simp_wf
  all_goals omega

/-- Build each declared property's arbitrary, extending the path with
a dot and the property name. -/
def buildShape (ov : OverrideMap) (shape : List (String × Schema)) (path : String) :
    Except String (List (String × Arb)) :=
  match shape with
  | [] => .ok []
  | (k, sch) :: rest => do
      let a ← inputWithPath ov sch (path ++ "." ++ k)
      let prest ← buildShape ov rest path
      .ok ((k, a) :: prest)
termination_by 2 * sizeOf shape
decreasing_by
  all_goals simp_wf
  all_goals omega

/-- Build each union option's arbitrary at the unchanged path. -/
def buildOptions (ov : OverrideMap) (options : List Schema) (path : String) :
    Except String (List Arb) :=
  match options with
  | [] => .ok []
  | o :: rest => do
      let a ← inputWithPath ov o path
      let prest ← buildOptions ov rest path
      .ok (a :: prest)
termination_by 2 * sizeOf options
decreasing_by
  all_goals simp_wf
  all_goals omega

/-- Build each tuple item's arbitrary, extending the path with the index. -/
def buildItems (ov : OverrideMap) (items : List Schema) (path : String) (index : Nat) :
    Except String (List Arb) :=
  match items with
  | [] => .ok []
  | item :: rest => do
      let a ← inputWithPath ov item (path ++ "[" ++ toString index ++ "]")
      let prest ← buildItems ov rest path (index + 1)
      .ok (a :: prest)
termination_by 2 * sizeOf items
decreasing_by
  all_goals simp_wf
  all_goals omega

end

/-- `inputOf(schema)`: compile at the empty root path. -/
def inputOf (ov : OverrideMap) (s : Schema) : Except String Arb :=
  inputWithPath ov s ""

/-- The closed set of scalar type tags for which input and output
generation are always identical. -/
def SCALAR_TYPES : List String :=
  ["ZodString", "ZodNumber", "ZodBigInt", "ZodBoolean", "ZodDate",
   "ZodUndefined", "ZodNull", "ZodLiteral", "ZodEnum", "ZodNativeEnum",
   "ZodAny", "ZodUnknown", "ZodVoid"]

/-- `isFirstPartyType`: whether the schema's type tag is a key of
`arbitraryBuilders` (every constructor but `foreign`). -/
def isFirstPartyType : Schema → Bool
  | .foreign _ _ => false
  | _ => true

/-- The object `safeParse` returns, as a runtime value: `{ success, data }`
on success, `{ success: false }` (failure detail not modelled) otherwise. -/
def encodeSafeParseResult : Option Value → Value
  | some d => .obj [("success", .bool true), ("data", d)]
  | none => .obj [("success", .bool false)]

/-- JavaScript field access `v[k]` (undefined off objects). -/
def jsField (v : Value) (k : String) : Value :=
  match v with
  | .obj kvs => jsGet kvs k
  | _ => Value.undef

/-- `isUnionMember({ success: true })`: the output pipeline's acceptance
predicate on encoded parse results. -/
def successPredicate : Value → Bool :=
  fun r => (jsField r "success").beq (.bool true)

/-- `(parsed) => parsed.data`, the output pipeline's final projection. -/
def dataOfResult : Value → Value :=
  fun r => jsField r "data"

/-- `outputOf(schema)`: the input arbitrary unchanged for scalar-tagged
first-party schemas; otherwise map through `safeParse`, filter to successes
under the success-rate monitor at the root path, and project the data. -/
def outputOf (ov : OverrideMap) (s : Schema) : Except String Arb := do
  let inputArbitrary ← inputOf ov s
  if isFirstPartyType s && SCALAR_TYPES.contains s.typeName then
    .ok inputArbitrary
  else
    .ok (.mapArb dataOfResult
      (.filterMonitor MIN_SUCCESS_RATE successPredicate ""
        (.mapArb (fun value => encodeSafeParseResult (safeParse s value))
          inputArbitrary)))

/-- The warm-up trial count of the success-rate monitor. -/
def MIN_RUNS : Nat := 1000

/-- One evaluation of the predicate closure `throwIfSuccessRateBelow(rate,
predicate, path)` returns: run the predicate, increment the counters, and
raise the generation-infeasible error when, past the warm-up count, the
running success ratio is below the rate. -/
structure MonitorState where
  successful : Nat
  total : Nat
deriving DecidableEq

def throwIfSuccessRateBelowStep (rate : Rat) (predicate : Value → Bool)
    (path : String) (st : MonitorState) (value : Value) :
    Except String (MonitorState × Bool) :=
  let isSuccess := predicate value
  let total := st.total + 1
  let successful := st.successful + (if isSuccess then 1 else 0)
  if total > MIN_RUNS ∧ (successful : Rat) / (total : Rat) < rate then
    .error (generationErrorMessage path)
  else
    .ok (⟨successful, total⟩, isSuccess)

/-- Feeding a sequence of candidates to one filter closure instance: the
closure's captured counters thread through; an error aborts the run. -/
def runMonitor (rate : Rat) (predicate : Value → Bool) (path : String) :
    MonitorState → List Value → Except String MonitorState
  | st, [] => .ok st
  | st, v :: rest =>
      match throwIfSuccessRateBelowStep rate predicate path st v with
      | .error e => .error e
      | .ok (st', _) => runMonitor rate predicate path st' rest

/-- The heap of compiler instances: each `_ZodFastCheck` object, by
reference, owns one override map.  Mutation is explicit state passing, so
that non-mutation of a receiver is a statement, not a triviality. -/
abbrev Store := List (Nat × OverrideMap)

def Store.get (st : Store) (i : Nat) : Option OverrideMap :=
  (st.find? (fun e => e.1 == i)).map (fun e => e.2)

def Store.freshId (st : Store) : Nat :=
  (st.map Prod.fst).foldr max 0 + 1

def Store.update (st : Store) (i : Nat) (m : OverrideMap) : Store :=
  st.map (fun e => if e.1 == i then (e.1, m) else e)

/-- `clone()`: allocate a fresh instance and copy every override entry
into it (`this.overrides.forEach(cloned.overrides.set)`). -/
def clone (st : Store) (self : Nat) : Store × Nat :=
  let cloned := Store.freshId st
  let m := (Store.get st self).getD []
  (st ++ [(cloned, m)], cloned)

/-- `override(schema, arbitrary)`: clone, then set the entry on the clone,
and return the clone. -/
def overrideOp (st : Store) (self : Nat) (schemaId : Nat) (arbitrary : Arb) :
    Store × Nat :=
  let (st1, withOverride) := clone st self
  let m := (Store.get st1 withOverride).getD []
  (Store.update st1 withOverride (OverrideMap.set m schemaId arbitrary), withOverride)

/-- Multiply a generated integer back up by the `multipleOf` factor
(the newer `ZodNumber` builder's final `map`). -/
def mulFactor (factor : Rat) : Value → Value
  | .num x => .num (x * factor)
  | v => v

/-- The `ZodNumber` builder's check loop of the newest dispatcher revision
(the one shipped alongside the discriminated-union support): `min`/`max`
narrow safe-integer bounds, `max` and `finite` set finiteness, `int` and
`multipleOf` accumulate a factor; a factor yields a scaled integer
generator, otherwise a double generator, with `Infinity` mixed in when no
check forces finiteness. -/
def buildNumberLoopNew : List NumberCheck → Rat → Rat → Bool → Option Rat → Arb
  | [], mn, mx, isFinite, multipleOf =>
      match multipleOf with
      | some factor =>
          .mapArb (mulFactor factor) (.fcInteger ⌈mn / factor⌉ ⌊mx / factor⌋)
      | none =>
          let finiteArb := Arb.fcDouble mn mx
          if isFinite then finiteArb else .fcOneof [finiteArb, .fcConstant .inf]
  | .min v inclusive :: rest, mn, mx, isF, mo =>
      buildNumberLoopNew rest (max mn (if inclusive then v else v + 1 / 1000)) mx isF mo
  | .max v inclusive :: rest, mn, mx, _, mo =>
      buildNumberLoopNew rest mn (min mx (if inclusive then v else v - 1 / 1000)) true mo
  | .int :: rest, mn, mx, isF, mo =>
      buildNumberLoopNew rest mn mx isF (some (mo.getD 1))
  | .finite :: rest, mn, mx, _, mo => buildNumberLoopNew rest mn mx true mo
  | .multipleOf v :: rest, mn, mx, isF, mo =>
      buildNumberLoopNew rest mn mx isF (some (mo.getD 1 * v))

/-- The newest revision's `ZodNumber` builder, over the safe-integer range. -/
def ZodNumberBuilderNew (checks : List NumberCheck) : Arb :=
  buildNumberLoopNew checks (-(2 ^ 53 - 1)) (2 ^ 53 - 1) false none

/-- `optionsMap.get(discriminator)` on a discriminated union's options map:
a JavaScript `Map` lookup, where a stored `undefined` and a missing key are
indistinguishable to the caller. -/
def jsMapGetOpt {α : Type} (m : List (String × Option α)) (k : String) : Option α :=
  match m.find? (fun p => p.1 == k) with
  | some p => p.2
  | none => none

/-- The body of the `keys.map(...)` callback chain in the
`ZodDiscriminatedUnion` builder: recurse into each tag's member in order,
throwing as soon as a tag has no corresponding member schema. -/
def buildDiscriminatedUnionGo {α : Type} (optionsMap : List (String × Option α))
    (recurse : α → Arb) : List String → Except String (List Arb)
  | [] => .ok []
  | k :: rest =>
      match jsMapGetOpt optionsMap k with
      | some option => do
          let prest ← buildDiscriminatedUnionGo optionsMap recurse rest
          .ok (recurse option :: prest)
      | none =>
          .error (k ++ " should correspond to a variant discriminator, but it does not")

/-- The `ZodDiscriminatedUnion` builder of the newest dispatcher revision:
sort the member tags, look each up in the options map, and take a uniform
choice among the members' arbitraries.  The member schemas' own compilation
is abstracted as `recurse`, the continuation the dispatcher passes in. -/
def ZodDiscriminatedUnionBuilder {α : Type} (optionsMap : List (String × Option α))
    (recurse : α → Arb) : Except String Arb := do
  let keys := (optionsMap.map Prod.fst).mergeSort (fun a b => decide (a ≤ b))
  let alts ← buildDiscriminatedUnionGo optionsMap recurse keys
  .ok (.fcOneof alts)

/-! ## Success-rate monitor lemmas -/

/-- A rejected-by-all run of the monitor keeps the success counter at zero
and, with a positive rate, errors at the first evaluation past the warm-up
count. -/
theorem runMonitor_all_false (rate : Rat) (predicate : Value → Bool) (path : String) :
    ∀ (cs : List Value) (t : Nat),
      (∀ v ∈ cs, predicate v = false) →
      0 < rate →
      t ≤ MIN_RUNS →
      MIN_RUNS < t + cs.length →
      runMonitor rate predicate path ⟨0, t⟩ cs = .error (generationErrorMessage path) := by
  intro cs
  induction cs with
  | nil =>
    intro t _ _ h1 h2
    simp at h2
    omega
  | cons v rest ih =>
    intro t hfalse hrate h1 h2
    have hv : predicate v = false := hfalse v (List.mem_cons_self v rest)
    by_cases hwarm : MIN_RUNS < t + 1
    · simp only [runMonitor, throwIfSuccessRateBelowStep, hv]
      simp [hwarm, hrate]
    · have hsplit : runMonitor rate predicate path ⟨0, t⟩ (v :: rest) =
          runMonitor rate predicate path ⟨0, t + 1⟩ rest := by
        simp only [runMonitor, throwIfSuccessRateBelowStep, hv]
        simp [hwarm]
      rw [hsplit]
      refine ih (t + 1) (fun x hx => hfalse x (List.mem_cons_of_mem v hx)) hrate
        (by omega) (by simp at h2 ⊢; omega)

/-- A monitor run shorter than the warm-up count never errors. -/
theorem runMonitor_short_ok (rate : Rat) (predicate : Value → Bool) (path : String) :
    ∀ (cs : List Value) (st : MonitorState),
      st.total + cs.length ≤ MIN_RUNS →
      (runMonitor rate predicate path st cs).isOk = true := by
  intro cs
  induction cs with
  | nil => intro st _; simp [runMonitor, Except.isOk, Except.toBool]
  | cons v rest ih =>
    intro st hlen
    have hwarm : ¬ MIN_RUNS < st.total + 1 := by simp at hlen; omega
    simp only [runMonitor, throwIfSuccessRateBelowStep]
    simp only [hwarm, false_and, if_neg, not_false_iff]
    exact ih _ (by simp at hlen ⊢; omega)

/-- C2: for every filtering wrapper built by the success-rate monitor, once
more than the 1000 warm-up trials have been counted, a running success
ratio below the 1% minimum rate makes the evaluation raise the
generation-infeasible error, whose message carries the wrapper's structural
path; in particular a predicate accepting 0% of candidates raises the error
within the documented budget (at trial 1001) instead of looping forever. -/
theorem claim_C2_breaker_fires :
    (∀ (rate : Rat) (predicate : Value → Bool) (path : String)
        (st : MonitorState) (v : Value),
      MIN_RUNS < st.total + 1 →
      ((st.successful + (if predicate v then 1 else 0) : Nat) : Rat) /
          ((st.total + 1 : Nat) : Rat) < rate →
      throwIfSuccessRateBelowStep rate predicate path st v =
        .error (generationErrorMessage path)) ∧
    (∀ path : String, path ≠ "" →
      ∃ pre post, generationErrorMessage path = pre ++ path ++ post) ∧
    (∀ (predicate : Value → Bool) (path : String) (cs : List Value),
      (∀ v ∈ cs, predicate v = false) →
      cs.length = MIN_RUNS + 1 →
      runMonitor MIN_SUCCESS_RATE predicate path ⟨0, 0⟩ cs =
        .error (generationErrorMessage path)) := by
  refine ⟨?_, ?_, ?_⟩
  · intro rate predicate path st v h1 h2
    have hc : st.total + 1 > MIN_RUNS ∧
        ((st.successful + (if predicate v then 1 else 0) : Nat) : Rat) /
          ((st.total + 1 : Nat) : Rat) < rate := ⟨h1, h2⟩
    simp only [throwIfSuccessRateBelowStep]
    rw [if_pos hc]
  · intro path h
    refine ⟨"Unable to generate valid values for Zod schema. An override is must be " ++
      "provided for the schema at path '", "'.", ?_⟩
    unfold generationErrorMessage
    rw [if_neg h]
    rfl
  · intro predicate path cs hfalse hlen
    exact runMonitor_all_false MIN_SUCCESS_RATE predicate path cs 0 hfalse
      (by norm_num [MIN_SUCCESS_RATE]) (by omega) (by omega)

theorem claim_C2_breaker_fires_witness :
    throwIfSuccessRateBelowStep MIN_SUCCESS_RATE (fun _ => false) ".x" ⟨0, 1000⟩ .undef
      = .error (generationErrorMessage ".x") ∧
    runMonitor MIN_SUCCESS_RATE (fun _ => false) ".x" ⟨0, 0⟩
        (List.replicate 1001 .undef)
      = .error (generationErrorMessage ".x") :=
  ⟨claim_C2_breaker_fires.1 MIN_SUCCESS_RATE (fun _ => false) ".x" ⟨0, 1000⟩ .undef
      (by norm_num [MIN_RUNS]) (by norm_num [MIN_SUCCESS_RATE]),
   claim_C2_breaker_fires.2.2 (fun _ => false) ".x" (List.replicate 1001 .undef)
      (fun _ _ => rfl) (by rw [List.length_replicate]; rfl)⟩

/-- C9: the breaker is unreachable during the warm-up window: an evaluation
whose incremented trial count stays at or below 1000 always returns
normally (with the exact incremented counters), a run of at most 1000
candidates never errors, and a predicate rejecting every candidate errors
exactly on the 1001st evaluation (and, by the previous part, never
before). -/
theorem claim_C9_warmup_window :
    (∀ (rate : Rat) (predicate : Value → Bool) (path : String)
        (st : MonitorState) (v : Value),
      st.total + 1 ≤ MIN_RUNS →
      throwIfSuccessRateBelowStep rate predicate path st v =
        .ok (⟨st.successful + (if predicate v then 1 else 0), st.total + 1⟩,
          predicate v)) ∧
    (∀ (rate : Rat) (predicate : Value → Bool) (path : String) (cs : List Value),
      cs.length ≤ MIN_RUNS →
      (runMonitor rate predicate path ⟨0, 0⟩ cs).isOk = true) ∧
    (∀ (predicate : Value → Bool) (path : String) (cs : List Value),
      (∀ v ∈ cs, predicate v = false) →
      cs.length = MIN_RUNS + 1 →
      runMonitor MIN_SUCCESS_RATE predicate path ⟨0, 0⟩ cs =
        .error (generationErrorMessage path)) := by
  refine ⟨?_, ?_, ?_⟩
  · intro rate predicate path st v h1
    have hc : ¬(st.total + 1 > MIN_RUNS ∧
        ((st.successful + (if predicate v then 1 else 0) : Nat) : Rat) /
          ((st.total + 1 : Nat) : Rat) < rate) := by
      intro ⟨hgt, _⟩
      omega
    simp only [throwIfSuccessRateBelowStep]
    rw [if_neg hc]
  · intro rate predicate path cs hlen
    exact runMonitor_short_ok rate predicate path cs ⟨0, 0⟩ (by simpa using hlen)
  · intro predicate path cs hfalse hlen
    exact runMonitor_all_false MIN_SUCCESS_RATE predicate path cs 0 hfalse
      (by norm_num [MIN_SUCCESS_RATE]) (by omega) (by omega)

theorem claim_C9_warmup_window_witness :
    throwIfSuccessRateBelowStep MIN_SUCCESS_RATE (fun _ => false) ".y" ⟨0, 0⟩ .null
      = .ok (⟨0, 1⟩, false) ∧
    (runMonitor MIN_SUCCESS_RATE (fun _ => false) ".y" ⟨0, 0⟩
        (List.replicate 1000 .null)).isOk = true ∧
    runMonitor MIN_SUCCESS_RATE (fun _ => false) ".y" ⟨0, 0⟩
        (List.replicate 1001 .null)
      = .error (generationErrorMessage ".y") :=
  ⟨claim_C9_warmup_window.1 MIN_SUCCESS_RATE (fun _ => false) ".y" ⟨0, 0⟩ .null
      (by norm_num [MIN_RUNS]),
   claim_C9_warmup_window.2.1 MIN_SUCCESS_RATE (fun _ => false) ".y"
      (List.replicate 1000 .null) (by rw [List.length_replicate]; decide),
   claim_C9_warmup_window.2.2 (fun _ => false) ".y" (List.replicate 1001 .null)
      (fun _ _ => rfl) (by rw [List.length_replicate]; rfl)⟩

/-! ## Store (compiler-instance heap) lemmas -/

theorem le_foldr_max (l : List Nat) (i : Nat) (h : i ∈ l) : i ≤ l.foldr max 0 := by
  induction l with
  | nil => cases h
  | cons a rest ih =>
    rcases List.mem_cons.mp h with rfl | hmem
    · exact le_max_left _ _
    · exact le_trans (ih hmem) (le_max_right _ _)

theorem freshId_not_mem (st : Store) : Store.freshId st ∉ st.map Prod.fst := by
  intro hmem
  have := le_foldr_max (st.map Prod.fst) _ hmem
  simp only [Store.freshId] at this
  omega

theorem Store.get_append_left (st : Store) (l2 : Store) (i : Nat)
    (h : i ∈ st.map Prod.fst) : Store.get (st ++ l2) i = Store.get st i := by
  induction st with
  | nil => simp at h
  | cons e rest ih =>
    by_cases he : e.1 = i
    · simp [Store.get, List.find?, he]
    · have hb : (e.1 == i) = false := beq_eq_false_iff_ne.mpr he
      simp only [List.map_cons, List.mem_cons] at h
      rcases h with h | h
      · exact absurd h.symm he
      · simp only [Store.get, List.cons_append, List.find?, hb]
        exact ih h

theorem Store.get_append_fresh (st : Store) (i : Nat) (m : OverrideMap)
    (h : i ∉ st.map Prod.fst) : Store.get (st ++ [(i, m)]) i = some m := by
  induction st with
  | nil => simp [Store.get, List.find?]
  | cons e rest ih =>
    simp only [List.map_cons, List.mem_cons] at h
    push_neg at h
    have hb : (e.1 == i) = false := beq_eq_false_iff_ne.mpr (fun hx => h.1 hx.symm)
    simp only [Store.get, List.cons_append, List.find?, hb]
    exact ih h.2

theorem Store.get_update_ne (st : Store) (i j : Nat) (m : OverrideMap)
    (h : i ≠ j) : Store.get (Store.update st j m) i = Store.get st i := by
  induction st with
  | nil => simp [Store.get, Store.update]
  | cons e rest ih =>
    simp only [Store.update, List.map_cons]
    by_cases he : e.1 = j
    · have hb : (e.1 == j) = true := beq_iff_eq.mpr he
      have hbi : (e.1 == i) = false := beq_eq_false_iff_ne.mpr (by omega)
      simp only [hb, if_true, Store.get, List.find?, hbi]
      exact ih
    · have hb : (e.1 == j) = false := beq_eq_false_iff_ne.mpr he
      simp only [hb, Bool.false_eq_true, if_false, Store.get, List.find?]
      cases hbi : e.1 == i with
      | true => rfl
      | false => exact ih

theorem Store.get_update_self (st : Store) (i : Nat) (m : OverrideMap)
    (h : (Store.get st i).isSome = true) :
    Store.get (Store.update st i m) i = some m := by
  induction st with
  | nil => simp [Store.get] at h
  | cons e rest ih =>
    simp only [Store.update, List.map_cons]
    by_cases he : e.1 = i
    · have hb : (e.1 == i) = true := beq_iff_eq.mpr he
      simp [hb, Store.get, List.find?]
    · have hb : (e.1 == i) = false := beq_eq_false_iff_ne.mpr he
      simp only [Store.get, List.find?, hb] at h
      simp only [hb, Bool.false_eq_true, if_false, Store.get, List.find?]
      exact ih h

/-- C4: `override(schema, arbitrary)` returns a new compiler instance
(fresh, distinct from every existing one) whose override map is the copy of
the receiver's prior map plus the new entry, while the receiver's own map
holds exactly the same entries after the call as before. -/
theorem claim_C4_override_copy_on_write (st : Store) (self schemaId : Nat)
    (g : Arb) (hself : self ∈ st.map Prod.fst) :
    Store.get (overrideOp st self schemaId g).1 (overrideOp st self schemaId g).2 =
      some (OverrideMap.set ((Store.get st self).getD []) schemaId g) ∧
    Store.get (overrideOp st self schemaId g).1 self = Store.get st self ∧
    (overrideOp st self schemaId g).2 ∉ st.map Prod.fst := by
  have hfresh : Store.freshId st ∉ st.map Prod.fst := freshId_not_mem st
  have hne : self ≠ Store.freshId st := fun he => hfresh (he ▸ hself)
  have hget1 : Store.get (st ++ [(Store.freshId st, (Store.get st self).getD [])])
      (Store.freshId st) = some ((Store.get st self).getD []) :=
    Store.get_append_fresh st _ _ hfresh
  refine ⟨?_, ?_, ?_⟩
  · simp only [overrideOp, clone]
    rw [hget1]
    simp only [Option.getD_some]
    exact Store.get_update_self _ _ _ (by rw [hget1]; rfl)
  · simp only [overrideOp, clone]
    rw [Store.get_update_ne _ _ _ _ hne]
    exact Store.get_append_left st _ self hself
  · simpa only [overrideOp, clone] using hfresh

theorem claim_C4_override_copy_on_write_witness :
    Store.get (overrideOp [(7, [])] 7 3 .fcBoolean).1
        (overrideOp [(7, [])] 7 3 .fcBoolean).2 =
      some (OverrideMap.set [] 3 .fcBoolean) ∧
    Store.get (overrideOp [(7, [])] 7 3 .fcBoolean).1 7 = Store.get [(7, [])] 7 ∧
    (overrideOp [(7, [])] 7 3 .fcBoolean).2 ∉ ([(7, [])] : Store).map Prod.fst :=
  claim_C4_override_copy_on_write [(7, [])] 7 3 .fcBoolean (by decide)

/-! ## Discriminated-union builder lemmas -/

theorem buildDU_go_all_some {α : Type} (m : List (String × Option α)) (recurse : α → Arb) :
    ∀ ks : List String,
      (∀ k ∈ ks, (jsMapGetOpt m k).isSome = true) →
      buildDiscriminatedUnionGo m recurse ks =
        .ok (ks.filterMap (fun k => (jsMapGetOpt m k).map recurse)) := by
  intro ks
  induction ks with
  | nil => intro _; simp [buildDiscriminatedUnionGo]
  | cons k rest ih =>
    intro h
    obtain ⟨o, ho⟩ := Option.isSome_iff_exists.mp (h k (List.mem_cons_self k rest))
    have hrest := ih (fun x hx => h x (List.mem_cons_of_mem k hx))
    simp only [buildDiscriminatedUnionGo, ho, hrest, List.filterMap_cons,
      Option.map_some']
    rfl

theorem buildDU_go_error {α : Type} (m : List (String × Option α)) (recurse : α → Arb) :
    ∀ ks : List String,
      (∃ k ∈ ks, jsMapGetOpt m k = none) →
      ∃ k', buildDiscriminatedUnionGo m recurse ks =
        .error (k' ++ " should correspond to a variant discriminator, but it does not") := by
  intro ks
  induction ks with
  | nil => rintro ⟨k, hk, _⟩; cases hk
  | cons k rest ih =>
    rintro ⟨k0, hk0, hnone⟩
    rcases List.mem_cons.mp hk0 with rfl | hmem
    · exact ⟨k0, by simp [buildDiscriminatedUnionGo, hnone]⟩

    · cases hk : jsMapGetOpt m k with
      | none => exact ⟨k, by simp [buildDiscriminatedUnionGo, hk]⟩
      | some o =>
        obtain ⟨k', herr⟩ := ih ⟨k0, hmem, hnone⟩
        refine ⟨k', ?_⟩
        simp only [buildDiscriminatedUnionGo, hk, herr]
        rfl

theorem find?_eq_of_nodup_mem {α : Type} :
    ∀ (m : List (String × Option α)) (p : String × Option α),
      (m.map Prod.fst).Nodup → p ∈ m →
      m.find? (fun e => e.1 == p.1) = some p := by
  intro m
  induction m with
  | nil => intro p _ hp; cases hp
  | cons e rest ih =>
    intro p hnd hp
    simp only [List.map_cons, List.nodup_cons] at hnd
    rcases List.mem_cons.mp hp with rfl | hmem
    · simp [List.find?]
    · have hne : e.1 ≠ p.1 := by
        intro hx
        exact hnd.1 (hx ▸ List.mem_map_of_mem Prod.fst hmem)
      simp only [List.find?, beq_eq_false_iff_ne.mpr hne]
      exact ih p hnd.2 hmem

/-- C6: the discriminated-union builder iterates the member tags in sorted
order when assembling the choice (so the assembled generator is the
deterministic `oneof` over the sorted tags' members), and a tag whose entry
holds no member schema makes construction fail permanently with an error
instead of producing a generator. -/
theorem claim_C6_discriminated_union {α : Type} (optionsMap : List (String × Option α))
    (recurse : α → Arb) :
    List.Sorted (· ≤ ·)
      ((optionsMap.map Prod.fst).mergeSort (fun a b => decide (a ≤ b))) ∧
    ((∀ p ∈ optionsMap, p.2.isSome = true) →
      ZodDiscriminatedUnionBuilder optionsMap recurse =
        .ok (.fcOneof
          (((optionsMap.map Prod.fst).mergeSort (fun a b => decide (a ≤ b))).filterMap
            (fun k => (jsMapGetOpt optionsMap k).map recurse)))) ∧
    ((optionsMap.map Prod.fst).Nodup →
      (∃ p ∈ optionsMap, p.2 = none) →
      ∃ k', ZodDiscriminatedUnionBuilder optionsMap recurse =
        .error (k' ++ " should correspond to a variant discriminator, but it does not")) := by
  refine ⟨?_, ?_, ?_⟩
  · have hs := @List.sorted_mergeSort String
      (fun a b : String => decide (a ≤ b))
      (fun a b c hab hbc => by
        simp only [decide_eq_true_eq] at hab hbc ⊢
        exact le_trans hab hbc)
      (fun a b => by simpa using le_total a b)
      (optionsMap.map Prod.fst)
    exact hs.imp (fun h => by simpa using h)
  · intro hall
    have hks : ∀ k ∈ (optionsMap.map Prod.fst).mergeSort (fun a b => decide (a ≤ b)),
        (jsMapGetOpt optionsMap k).isSome = true := by
      intro k hk
      have hmem : k ∈ optionsMap.map Prod.fst :=
        (List.mergeSort_perm (optionsMap.map Prod.fst) _).mem_iff.mp hk
      obtain ⟨p, hp, rfl⟩ := List.mem_map.mp hmem
      unfold jsMapGetOpt
      cases hf : optionsMap.find? (fun e => e.1 == p.1) with
      | none =>
        have : ∃ x ∈ optionsMap, (fun e => e.1 == p.1) x = true :=
          ⟨p, hp, by simp⟩
        rw [← List.find?_isSome] at this
        rw [hf] at this
        cases this
      | some q =>
        have hq : q ∈ optionsMap := List.mem_of_find?_eq_some hf
        exact hall q hq
    simp only [ZodDiscriminatedUnionBuilder]
    rw [buildDU_go_all_some optionsMap recurse _ hks]
    rfl
  · intro hnd ⟨p, hp, hnone⟩
    have hkmem : p.1 ∈ (optionsMap.map Prod.fst).mergeSort (fun a b => decide (a ≤ b)) :=
      (List.mergeSort_perm (optionsMap.map Prod.fst) _).mem_iff.mpr
        (List.mem_map_of_mem Prod.fst hp)
    have hget : jsMapGetOpt optionsMap p.1 = none := by
      unfold jsMapGetOpt
      rw [find?_eq_of_nodup_mem optionsMap p hnd hp]
      exact hnone
    obtain ⟨k', herr⟩ := buildDU_go_error optionsMap recurse _ ⟨p.1, hkmem, hget⟩
    refine ⟨k', ?_⟩
    simp only [ZodDiscriminatedUnionBuilder]
    rw [herr]
    rfl

theorem claim_C6_discriminated_union_witness :
    ZodDiscriminatedUnionBuilder [("b", some 0), ("a", some 1)]
        (fun _ : Nat => Arb.fcBoolean) =
      .ok (.fcOneof
        (((([("b", some 0), ("a", some 1)] : List (String × Option Nat)).map
            Prod.fst).mergeSort (fun a b => decide (a ≤ b))).filterMap
          (fun k => (jsMapGetOpt [("b", some 0), ("a", some 1)] k).map
            (fun _ : Nat => Arb.fcBoolean)))) ∧
    (∃ k', ZodDiscriminatedUnionBuilder [("a", (none : Option Nat))]
        (fun _ : Nat => Arb.fcBoolean) =
      .error (k' ++ " should correspond to a variant discriminator, but it does not")) :=
  ⟨(claim_C6_discriminated_union [("b", some 0), ("a", some 1)]
      (fun _ : Nat => Arb.fcBoolean)).2.1 (by decide),
   (claim_C6_discriminated_union [("a", (none : Option Nat))]
      (fun _ : Nat => Arb.fcBoolean)).2.2 (by decide) ⟨("a", none), by decide, rfl⟩⟩

/-- C7: evaluation of both `ZodNumber` builders at the failing input
`z.number().max(500)` (a single inclusive max bound, no int check).  In the
older revision the `switch`'s missing `break` makes the max case fall
through into the int case, so the builder returns an integer generator and
the non-integer `0.5` — in range and valid for the schema — can never be
generated; the newest revision of the same builder returns the double
generator the claim describes, which does produce `0.5`. -/
theorem claim_C7_number_max_fallthrough :
    ZodNumberBuilder [.max 500 true] = .fcInteger (-(2 ^ 64)) 500 ∧
    ¬ Produces (ZodNumberBuilder [.max 500 true]) (.num (1 / 2)) ∧
    ZodNumberBuilderNew [.max 500 true] = .fcDouble (-(2 ^ 53 - 1)) 500 ∧
    Produces (ZodNumberBuilderNew [.max 500 true]) (.num (1 / 2)) := by
  have h1 : ZodNumberBuilder [.max 500 true] = .fcInteger (-(2 ^ 64)) 500 := by
    simp only [ZodNumberBuilder, buildNumberLoop, if_true]
    rw [min_eq_right (by norm_num)]
  have h3 : ZodNumberBuilderNew [.max 500 true] = .fcDouble (-(2 ^ 53 - 1)) 500 := by
    simp only [ZodNumberBuilderNew, buildNumberLoopNew, if_true]
    rw [min_eq_right (by norm_num)]
  refine ⟨h1, ?_, h3, ?_⟩
  · intro hprod
    rw [h1] at hprod
    generalize hq : ((1 : Rat) / 2) = q at hprod
    cases hprod with
    | integer mn mx n hmn hmx =>
      have h2 : (2 : Rat) * (n : Rat) = 1 := by rw [← hq]; ring
      have h2i : (2 * n : Int) = 1 := by exact_mod_cast h2
      omega
  · rw [h3]
    exact Produces.double _ _ _ (by norm_num) (by norm_num)

/-- C10: override resolution precedes type dispatch at every node: a
compiler holding an override for a schema returns the override's arbitrary
whatever the node's kind, so an override registered for an unsupported kind
(lazy, intersection, never, or a schema not recognised as first-party)
yields a working generator, while without the override the same schemas
raise the unsupported-schema error. -/
theorem claim_C10_override_precedes_dispatch :
    (∀ (ov : OverrideMap) (s : Schema) (path : String) (g : Arb),
      OverrideMap.get ov s.id = some g → inputWithPath ov s path = .ok g) ∧
    (∀ (i : Nat) (path : String) (g : Arb) (name : String),
      inputWithPath [] (.lazy i) path = .error (unsupportedMessage "Lazy" path) ∧
      inputWithPath [(i, g)] (.lazy i) path = .ok g ∧
      inputWithPath [] (.intersection i) path =
        .error (unsupportedMessage "Intersection" path) ∧
      inputWithPath [(i, g)] (.intersection i) path = .ok g ∧
      inputWithPath [] (.never i) path = .error (unsupportedMessage "Never" path) ∧
      inputWithPath [(i, g)] (.never i) path = .ok g ∧
      inputWithPath [] (.foreign i name) path =
        .error (unsupportedMessage ("'" ++ name ++ "'") path) ∧
      inputWithPath [(i, g)] (.foreign i name) path = .ok g) := by
  constructor
  · intro ov s path g h
    rw [inputWithPath, h]
  · intro i path g name
    refine ⟨?_, ?_, ?_, ?_, ?_, ?_, ?_, ?_⟩ <;>
      simp [inputWithPath, OverrideMap.get, arbitraryBuilder, Schema.id, List.find?]

theorem claim_C10_override_precedes_dispatch_witness :
    inputWithPath [(5, .fcBoolean)] (.boolean 5) "" = .ok .fcBoolean :=
  claim_C10_override_precedes_dispatch.1 [(5, .fcBoolean)] (.boolean 5) "" .fcBoolean rfl

/-- C3: for every schema whose type tag is in the closed scalar set,
`outputOf` returns the input arbitrary unchanged (so the two are
observationally indistinguishable — identical production sets); for every
other schema, `outputOf` maps each candidate through `safeParse`, filters
to successful parses via the success-rate monitor at the same rate (at the
root path), and projects the parsed data. -/
theorem claim_C3_output_scalar_fast_path :
    (∀ (ov : OverrideMap) (s : Schema),
      (isFirstPartyType s && SCALAR_TYPES.contains s.typeName) = true →
      outputOf ov s = inputOf ov s) ∧
    (∀ (ov : OverrideMap) (s : Schema) (a b : Arb),
      (isFirstPartyType s && SCALAR_TYPES.contains s.typeName) = true →
      outputOf ov s = .ok a → inputOf ov s = .ok b →
      ∀ v, Produces a v ↔ Produces b v) ∧
    (∀ (ov : OverrideMap) (s : Schema) (arb : Arb),
      (isFirstPartyType s && SCALAR_TYPES.contains s.typeName) = false →
      inputOf ov s = .ok arb →
      outputOf ov s = .ok (.mapArb dataOfResult
        (.filterMonitor MIN_SUCCESS_RATE successPredicate ""
          (.mapArb (fun value => encodeSafeParseResult (safeParse s value)) arb)))) := by
  have hfast : ∀ (ov : OverrideMap) (s : Schema),
      (isFirstPartyType s && SCALAR_TYPES.contains s.typeName) = true →
      outputOf ov s = inputOf ov s := by
    intro ov s h
    have hand : isFirstPartyType s = true ∧ SCALAR_TYPES.contains s.typeName = true := by
      simpa using h
    have hmem : s.typeName ∈ SCALAR_TYPES := by
      have := hand.2
      simpa using this
    unfold outputOf
    cases hin : inputOf ov s with
    | error e => rfl
    | ok a =>
        rw [h]
        rfl
  refine ⟨hfast, ?_, ?_⟩
  · intro ov s a b h ha hb
    rw [hfast ov s h, hb] at ha
    cases ha
    intro v
    exact Iff.rfl
  · intro ov s arb h hin
    have hnc : ¬(isFirstPartyType s = true ∧ s.typeName ∈ SCALAR_TYPES) := by
      intro ⟨h1, h2⟩
      have hb : (isFirstPartyType s && SCALAR_TYPES.contains s.typeName) = true := by
        rw [h1, Bool.true_and]
        simpa using h2
      rw [hb] at h
      cases h
    unfold outputOf
    rw [hin, h]
    rfl

theorem claim_C3_output_scalar_fast_path_witness :
    outputOf [] (.boolean 7) = inputOf [] (.boolean 7) ∧
    outputOf [] (.optional 0 (.boolean 1)) = .ok (.mapArb dataOfResult
      (.filterMonitor MIN_SUCCESS_RATE successPredicate ""
        (.mapArb
          (fun value => encodeSafeParseResult (safeParse (.optional 0 (.boolean 1)) value))
          (.fcOption .fcBoolean .undef 2)))) :=
  ⟨claim_C3_output_scalar_fast_path.1 [] (.boolean 7) (by decide),
   claim_C3_output_scalar_fast_path.2.2 [] (.optional 0 (.boolean 1))
      (.fcOption .fcBoolean .undef 2) (by decide)
      (by
        simp only [inputOf]
        rw [inputWithPath]
        simp only [OverrideMap.get, List.find?, Option.map_none']
        rw [arbitraryBuilder]
        rw [inputWithPath]
        simp only [OverrideMap.get, List.find?, Option.map_none']
        rw [arbitraryBuilder]
        rfl)⟩

/-! ## Schema identity bookkeeping -/

mutual

/-- Every identity token occurring in a schema tree (the node and all the
sub-schemas the dispatcher can reach). -/
def Schema.allIds : Schema → List Nat
  | .array i _ _ e => i :: e.allIds
  | .object i shape => i :: allIdsShape shape
  | .union i os => i :: allIdsList os
  | .tuple i its => i :: allIdsList its
  | .record i v => i :: v.allIds
  | .map i k v => i :: (k.allIds ++ v.allIds)
  | .set i v => i :: v.allIds
  | .function i r => i :: r.allIds
  | .promise i inr => i :: inr.allIds
  | .optional i inr => i :: inr.allIds
  | .nullable i inr => i :: inr.allIds
  | .defaulted i inr _ => i :: inr.allIds
  | .effects i inr _ => i :: inr.allIds
  | s => [s.id]
termination_by s => sizeOf s
decreasing_by
  all_goals simp_wf
  all_goals try omega

def allIdsShape : List (String × Schema) → List Nat
  | [] => []
  | (_, sch) :: rest => sch.allIds ++ allIdsShape rest
termination_by l => sizeOf l
decreasing_by
  all_goals simp_wf
  all_goals try omega

def allIdsList : List Schema → List Nat
  | [] => []
  | s :: rest => s.allIds ++ allIdsList rest
termination_by l => sizeOf l
decreasing_by
  all_goals simp_wf
  all_goals try omega

end

mutual

/-- A schema with every identity token replaced by zero: two schemas are
structurally identical exactly when their erasures coincide. -/
def Schema.eraseIds : Schema → Schema
  | .string _ cs => .string 0 cs
  | .number _ cs => .number 0 cs
  | .bigint _ => .bigint 0
  | .boolean _ => .boolean 0
  | .date _ => .date 0
  | .undef _ => .undef 0
  | .null _ => .null 0
  | .array _ mn mx e => .array 0 mn mx e.eraseIds
  | .object _ shape => .object 0 (eraseIdsShape shape)
  | .union _ os => .union 0 (eraseIdsList os)
  | .intersection _ => .intersection 0
  | .tuple _ its => .tuple 0 (eraseIdsList its)
  | .record _ v => .record 0 v.eraseIds
  | .map _ k v => .map 0 k.eraseIds v.eraseIds
  | .set _ v => .set 0 v.eraseIds
  | .function _ r => .function 0 r.eraseIds
  | .lazy _ => .lazy 0
  | .literal _ v => .literal 0 v
  | .enum _ vs => .enum 0 vs
  | .nativeEnum _ vs => .nativeEnum 0 vs
  | .promise _ inr => .promise 0 inr.eraseIds
  | .any _ => .any 0
  | .unknown _ => .unknown 0
  | .never _ => .never 0
  | .void _ => .void 0
  | .optional _ inr => .optional 0 inr.eraseIds
  | .nullable _ inr => .nullable 0 inr.eraseIds
  | .defaulted _ inr dv => .defaulted 0 inr.eraseIds dv
  | .effects _ inr eff => .effects 0 inr.eraseIds eff
  | .foreign _ n => .foreign 0 n
termination_by s => sizeOf s
decreasing_by
  all_goals simp_wf
  all_goals try omega

def eraseIdsShape : List (String × Schema) → List (String × Schema)
  | [] => []
  | (k, sch) :: rest => (k, sch.eraseIds) :: eraseIdsShape rest
termination_by l => sizeOf l
decreasing_by
  all_goals simp_wf
  all_goals try omega

def eraseIdsList : List Schema → List Schema
  | [] => []
  | s :: rest => s.eraseIds :: eraseIdsList rest
termination_by l => sizeOf l
decreasing_by
  all_goals simp_wf
  all_goals try omega

end

theorem Schema.id_mem_allIds (s : Schema) : s.id ∈ s.allIds := by
  cases s <;> simp [Schema.allIds, Schema.id]

theorem OverrideMap.get_eq_none (ov : OverrideMap) (i : Nat)
    (h : ∀ p ∈ ov, p.1 ≠ i) : OverrideMap.get ov i = none := by
  induction ov with
  | nil => rfl
  | cons e rest ih =>
    simp only [OverrideMap.get, List.find?,
      beq_eq_false_iff_ne.mpr (h e (List.mem_cons_self e rest))]
    exact ih (fun p hp => h p (List.mem_cons_of_mem e hp))

/-- Weaken an absent-ids hypothesis along the head of `allIds`. -/
theorem notMem_child {ov : OverrideMap} {i : Nat} {ids : List Nat}
    (h : ∀ p ∈ ov, p.1 ∉ i :: ids) : ∀ p ∈ ov, p.1 ∉ ids :=
  fun p hp hx => h p hp (List.mem_cons_of_mem _ hx)

mutual

/-- Overrides whose keys match no identity in a schema tree leave
compilation untouched. -/
theorem inputWithPath_no_override (ov : OverrideMap) (s : Schema) (path : String)
    (h : ∀ p ∈ ov, p.1 ∉ s.allIds) :
    inputWithPath ov s path = inputWithPath [] s path := by
  have hget : OverrideMap.get ov s.id = none :=
    OverrideMap.get_eq_none ov s.id
      (fun p hp hx => h p hp (hx ▸ Schema.id_mem_allIds s))
  rw [inputWithPath, hget, inputWithPath]
  show arbitraryBuilder ov s path = _
  rw [arbitraryBuilder_no_override ov s path h]
  rfl
termination_by 2 * sizeOf s + 1

theorem arbitraryBuilder_no_override (ov : OverrideMap) :
    ∀ (s : Schema) (path : String), (∀ p ∈ ov, p.1 ∉ s.allIds) →
    arbitraryBuilder ov s path = arbitraryBuilder [] s path
  | .array i mn mx elem, path, h => by
      have hc : ∀ p ∈ ov, p.1 ∉ elem.allIds := by
        simp only [Schema.allIds] at h
        exact notMem_child h
      simp only [arbitraryBuilder.eq_def]
      rw [inputWithPath_no_override ov elem (path ++ "[*]") hc]
  | .object i shape, path, h => by
      have hc : ∀ p ∈ ov, p.1 ∉ allIdsShape shape := by
        simp only [Schema.allIds] at h
        exact notMem_child h
      simp only [arbitraryBuilder.eq_def]
      rw [buildShape_no_override ov shape path hc]
  | .union i os, path, h => by
      have hc : ∀ p ∈ ov, p.1 ∉ allIdsList os := by
        simp only [Schema.allIds] at h
        exact notMem_child h
      simp only [arbitraryBuilder.eq_def]
      rw [buildOptions_no_override ov os path hc]
  | .tuple i its, path, h => by
      have hc : ∀ p ∈ ov, p.1 ∉ allIdsList its := by
        simp only [Schema.allIds] at h
        exact notMem_child h
      simp only [arbitraryBuilder.eq_def]
      rw [buildItems_no_override ov its path 0 hc]
  | .record i v, path, h => by
      have hc : ∀ p ∈ ov, p.1 ∉ v.allIds := by
        simp only [Schema.allIds] at h
        exact notMem_child h
      simp only [arbitraryBuilder.eq_def]
      rw [inputWithPath_no_override ov v (path ++ "[*]") hc]
  | .map i k v, path, h => by
      have hc : ∀ p ∈ ov, p.1 ∉ k.allIds ++ v.allIds := by
        simp only [Schema.allIds] at h
        exact notMem_child h
      simp only [arbitraryBuilder.eq_def]
      rw [inputWithPath_no_override ov k (path ++ ".(key)")
          (fun p hp hx => hc p hp (List.mem_append_left _ hx)),
        inputWithPath_no_override ov v (path ++ ".(value)")
          (fun p hp hx => hc p hp (List.mem_append_right _ hx))]
  | .set i v, path, h => by
      have hc : ∀ p ∈ ov, p.1 ∉ v.allIds := by
        simp only [Schema.allIds] at h
        exact notMem_child h
      simp only [arbitraryBuilder.eq_def]
      rw [inputWithPath_no_override ov v (path ++ ".(value)") hc]
  | .function i r, path, h => by
      have hc : ∀ p ∈ ov, p.1 ∉ r.allIds := by
        simp only [Schema.allIds] at h
        exact notMem_child h
      simp only [arbitraryBuilder.eq_def]
      rw [inputWithPath_no_override ov r (path ++ ".(return type)") hc]
  | .promise i inr, path, h => by
      have hc : ∀ p ∈ ov, p.1 ∉ inr.allIds := by
        simp only [Schema.allIds] at h
        exact notMem_child h
      simp only [arbitraryBuilder.eq_def]
      rw [inputWithPath_no_override ov inr (path ++ ".(resolved type)") hc]
  | .optional i inr, path, h => by
      have hc : ∀ p ∈ ov, p.1 ∉ inr.allIds := by
        simp only [Schema.allIds] at h
        exact notMem_child h
      simp only [arbitraryBuilder.eq_def]
      rw [inputWithPath_no_override ov inr path hc]
  | .nullable i inr, path, h => by
      have hc : ∀ p ∈ ov, p.1 ∉ inr.allIds := by
        simp only [Schema.allIds] at h
        exact notMem_child h
      simp only [arbitraryBuilder.eq_def]
      rw [inputWithPath_no_override ov inr path hc]
  | .defaulted i inr dv, path, h => by
      have hc : ∀ p ∈ ov, p.1 ∉ inr.allIds := by
        simp only [Schema.allIds] at h
        exact notMem_child h
      simp only [arbitraryBuilder.eq_def]
      rw [inputWithPath_no_override ov inr path hc]
  | .effects i inr eff, path, h => by
      have hc : ∀ p ∈ ov, p.1 ∉ inr.allIds := by
        simp only [Schema.allIds] at h
        exact notMem_child h
      simp only [arbitraryBuilder.eq_def]
      rw [inputWithPath_no_override ov inr path hc]
  | .string i cs, path, h => by simp only [arbitraryBuilder.eq_def]
  | .number i cs, path, h => by simp only [arbitraryBuilder.eq_def]
  | .bigint i, path, h => by simp only [arbitraryBuilder.eq_def]
  | .boolean i, path, h => by simp only [arbitraryBuilder.eq_def]
  | .date i, path, h => by simp only [arbitraryBuilder.eq_def]
  | .undef i, path, h => by simp only [arbitraryBuilder.eq_def]
  | .null i, path, h => by simp only [arbitraryBuilder.eq_def]
  | .intersection i, path, h => by simp only [arbitraryBuilder.eq_def]
  | .lazy i, path, h => by simp only [arbitraryBuilder.eq_def]
  | .literal i v, path, h => by simp only [arbitraryBuilder.eq_def]
  | .enum i vs, path, h => by simp only [arbitraryBuilder.eq_def]
  | .nativeEnum i vs, path, h => by simp only [arbitraryBuilder.eq_def]
  | .any i, path, h => by simp only [arbitraryBuilder.eq_def]
  | .unknown i, path, h => by simp only [arbitraryBuilder.eq_def]
  | .never i, path, h => by simp only [arbitraryBuilder.eq_def]
  | .void i, path, h => by simp only [arbitraryBuilder.eq_def]
  | .foreign i n, path, h => by simp only [arbitraryBuilder.eq_def]
termination_by s _ _ => 2 * sizeOf s

theorem buildShape_no_override (ov : OverrideMap) :
    ∀ (shape : List (String × Schema)) (path : String),
    (∀ p ∈ ov, p.1 ∉ allIdsShape shape) →
    buildShape ov shape path = buildShape [] shape path
  | [], _path, _h => by simp only [buildShape]
  | (k, sch) :: rest, path, h => by
      have hc : ∀ p ∈ ov, p.1 ∉ sch.allIds ++ allIdsShape rest := by
        simp only [allIdsShape] at h
        exact h
      simp only [buildShape]
      rw [inputWithPath_no_override ov sch (path ++ "." ++ k)
          (fun p hp hx => hc p hp (List.mem_append_left _ hx)),
        buildShape_no_override ov rest path
          (fun p hp hx => hc p hp (List.mem_append_right _ hx))]
termination_by shape _ _ => 2 * sizeOf shape

theorem buildOptions_no_override (ov : OverrideMap) :
    ∀ (os : List Schema) (path : String),
    (∀ p ∈ ov, p.1 ∉ allIdsList os) →
    buildOptions ov os path = buildOptions [] os path
  | [], _path, _h => by simp only [buildOptions]
  | o :: rest, path, h => by
      have hc : ∀ p ∈ ov, p.1 ∉ o.allIds ++ allIdsList rest := by
        simp only [allIdsList] at h
        exact h
      simp only [buildOptions]
      rw [inputWithPath_no_override ov o path
          (fun p hp hx => hc p hp (List.mem_append_left _ hx)),
        buildOptions_no_override ov rest path
          (fun p hp hx => hc p hp (List.mem_append_right _ hx))]
termination_by os _ _ => 2 * sizeOf os

theorem buildItems_no_override (ov : OverrideMap) :
    ∀ (its : List Schema) (path : String) (index : Nat),
    (∀ p ∈ ov, p.1 ∉ allIdsList its) →
    buildItems ov its path index = buildItems [] its path index
  | [], _path, _index, _h => by simp only [buildItems]
  | o :: rest, path, index, h => by
      have hc : ∀ p ∈ ov, p.1 ∉ o.allIds ++ allIdsList rest := by
        simp only [allIdsList] at h
        exact h
      simp only [buildItems]
      rw [inputWithPath_no_override ov o (path ++ "[" ++ toString index ++ "]")
          (fun p hp hx => hc p hp (List.mem_append_left _ hx)),
        buildItems_no_override ov rest path (index + 1)
          (fun p hp hx => hc p hp (List.mem_append_right _ hx))]
termination_by its _ _ _ => 2 * sizeOf its

end

/-- C5: override matching is strictly by object identity.  For two
structurally identical but distinct schema objects, a compiler holding an
override only for the first resolves the override when compiling the first
and compiles the second exactly as if no override were registered. -/
theorem claim_C5_identity_matching (s1 s2 : Schema) (g : Arb)
    (_hstruct : Schema.eraseIds s1 = Schema.eraseIds s2)
    (hid : s1.id ∉ s2.allIds) :
    inputOf [(s1.id, g)] s1 = .ok g ∧
    inputOf [(s1.id, g)] s2 = inputOf [] s2 := by
  constructor
  · rw [inputOf, inputWithPath]
    have hg : OverrideMap.get [(s1.id, g)] s1.id = some g := by
      simp [OverrideMap.get, List.find?]
    rw [hg]
  · exact inputWithPath_no_override [(s1.id, g)] s2 ""
      (fun p hp hx => by
        rcases List.mem_singleton.mp hp with rfl
        exact hid hx)

theorem claim_C5_identity_matching_witness :
    inputOf [(1, .fcConstant (.bool true))] (.boolean 1) =
      .ok (.fcConstant (.bool true)) ∧
    inputOf [(1, .fcConstant (.bool true))] (.boolean 2) = inputOf [] (.boolean 2) :=
  claim_C5_identity_matching (.boolean 1) (.boolean 2) (.fcConstant (.bool true))
    (by simp [Schema.eraseIds]) (by simp [Schema.allIds, Schema.id])

/-- A number schema under an unsatisfiable refinement, in an array, in an
object property `foo` — the path-convention example. -/
def unsatNumber : Schema := .number 3 []

def unsatRefinement : Schema := .effects 2 unsatNumber (.refine (fun _ => false))

def fooArraySchema : Schema := .array 1 none none unsatRefinement

def fooObjectSchema : Schema := .object 0 [("foo", fooArraySchema)]

/-- The acceptance predicate the dispatcher installs at the refinement. -/
def fooPredicate : Value → Bool :=
  fun value => (safeParse unsatRefinement value).isSome

set_option maxHeartbeats 1000000 in
/-- The refinement rejects every candidate, so the installed predicate is
constantly false. -/
theorem fooPredicate_false (v : Value) : fooPredicate v = false := by
  have heff : safeParse unsatRefinement v = (
      match safeParse unsatNumber v with
      | none => none
      | some d =>
        if (fun _ : Value => false) d then some d else none) := by
    simp only [unsatRefinement, safeParse]
  rw [fooPredicate, heff]
  cases safeParse unsatNumber v with
  | none => rfl
  | some d => rfl

set_option maxHeartbeats 1000000 in
/-- C8: the structural path follows the documented conventions.  Compiling
an object property `foo` holding an array of refined elements installs the
success-rate monitor at path `.foo[*]` (property access appends `.foo`,
any-array-element appends `[*]`, the refinement wrapper filters at the path
it was reached at); running that monitor past the warm-up raises the
generation-infeasible error whose message carries `.foo[*]`; and the empty
root path is rendered as `.`. -/
theorem claim_C8_path_convention :
    inputOf [] fooObjectSchema = .ok (.fcRecord [("foo",
      .fcArray (.filterMonitor MIN_SUCCESS_RATE fooPredicate ".foo[*]"
        (.fcDouble (-(2 ^ 64)) (2 ^ 64))) 0 10)]) ∧
    runMonitor MIN_SUCCESS_RATE fooPredicate ".foo[*]" ⟨0, 0⟩
        (List.replicate 1001 (.num 0)) = .error (generationErrorMessage ".foo[*]") ∧
    generationErrorMessage ".foo[*]" =
      "Unable to generate valid values for Zod schema. An override is must be " ++
        "provided for the schema at path '.foo[*]'." ∧
    generationErrorMessage "" =
      "Unable to generate valid values for Zod schema. An override is must be " ++
        "provided for the schema at path '.'." := by
  refine ⟨?_, ?_, ?_, ?_⟩
  · simp only [fooObjectSchema, fooArraySchema, unsatRefinement, unsatNumber,
      fooPredicate, inputOf, inputWithPath.eq_def, arbitraryBuilder.eq_def,
      buildShape, OverrideMap.get, List.find?, Option.map_none',
      filterArbitraryBySchema, ZodNumberBuilder, buildNumberLoop]
    rfl
  · exact runMonitor_all_false MIN_SUCCESS_RATE fooPredicate ".foo[*]"
      (List.replicate 1001 (.num 0)) 0 (fun v _ => fooPredicate_false v)
      (by norm_num [MIN_SUCCESS_RATE]) (by norm_num [MIN_RUNS])
      (by rw [List.length_replicate]; norm_num [MIN_RUNS])
  · decide
  · decide

/-! ## Scope of the generated-values-validate theorem -/

/-- A dedicated-format string check (`uuid`, `email`, `url`): the builder
returns its constructive generator immediately, abandoning every other
check. -/
def isFormatCheck : StringCheck → Bool
  | .uuid => true
  | .email => true
  | .url => true
  | _ => false

/-- A string schema's checks are format-safe when a format check, if
present, is the only check (the early return then discards nothing). -/
def stringChecksOk (cs : List StringCheck) : Bool :=
  !(cs.any isFormatCheck) || cs.length == 1

/-- The number checks that exist in the Zod versions the older dispatcher
revision targets (its `switch` handles exactly these). -/
def isOldNumberCheck : NumberCheck → Bool
  | .min _ _ => true
  | .max _ _ => true
  | .int => true
  | _ => false

mutual

/-- The schemas within the scope of the amended claim: every string node is
format-safe, object shapes have distinct keys (as JavaScript objects always
do), every default value validates against its inner schema (as the
TypeScript types of `ZodDefault` guarantee), and number checks are the ones
the targeted Zod versions can produce. -/
def wellFormedForGeneration : Schema → Bool
  | .string _ cs => stringChecksOk cs
  | .number _ cs => cs.all isOldNumberCheck
  | .array _ _ _ e => wellFormedForGeneration e
  | .object _ shape => decide (shape.map Prod.fst).Nodup && wfShape shape
  | .union _ os => wfList os
  | .tuple _ its => wfList its
  | .record _ v => wellFormedForGeneration v
  | .map _ k v => wellFormedForGeneration k && wellFormedForGeneration v
  | .set _ v => wellFormedForGeneration v
  | .function _ r => wellFormedForGeneration r
  | .promise _ i => wellFormedForGeneration i
  | .optional _ i => wellFormedForGeneration i
  | .nullable _ i => wellFormedForGeneration i
  | .defaulted _ i dv => (safeParse i dv).isSome && wellFormedForGeneration i
  | .effects _ i _ => wellFormedForGeneration i
  | _ => true
termination_by s => sizeOf s
decreasing_by
  all_goals simp_wf
  all_goals try omega

def wfShape : List (String × Schema) → Bool
  | [] => true
  | (_, sch) :: rest => wellFormedForGeneration sch && wfShape rest
termination_by l => sizeOf l
decreasing_by
  all_goals simp_wf
  all_goals try omega

def wfList : List Schema → Bool
  | [] => true
  | s :: rest => wellFormedForGeneration s && wfList rest
termination_by l => sizeOf l
decreasing_by
  all_goals simp_wf
  all_goals try omega

end

/-! ## Production-relation inversion helpers -/

theorem producesAll_mem {a : Arb} :
    ∀ {l : List Value}, ProducesAll a l → ∀ x ∈ l, Produces a x := by
  intro l h
  induction l with
  | nil => simp
  | cons hd tl ih =>
    cases h with
    | cons _ _ _ hhd htl =>
      intro x hx
      rcases List.mem_cons.mp hx with rfl | hmem
      · exact hhd
      · exact ih htl x hmem

theorem producesList_forall2 :
    ∀ {as_ : List Arb} {vs : List Value}, ProducesList as_ vs →
      List.Forall₂ (fun a v => Produces a v) as_ vs := by
  intro as_
  induction as_ with
  | nil => intro vs h; cases h; exact List.Forall₂.nil
  | cons hd tl ih =>
    intro vs h
    cases h with
    | cons _ _ _ _ hhd htl => exact List.Forall₂.cons hhd (ih htl)

theorem producesProps_forall2 :
    ∀ {ps : List (String × Arb)} {kvs : List (String × Value)}, ProducesProps ps kvs →
      List.Forall₂ (fun (p : String × Arb) (kv : String × Value) =>
        p.1 = kv.1 ∧ Produces p.2 kv.2) ps kvs := by
  intro ps
  induction ps with
  | nil => intro kvs h; cases h; exact List.Forall₂.nil
  | cons hd tl ih =>
    intro kvs h
    cases h with
    | cons _ _ _ _ _ hhd htl => exact List.Forall₂.cons ⟨rfl, hhd⟩ (ih htl)

theorem producesDict_values {ka va : Arb} :
    ∀ {kvs : List (String × Value)}, ProducesDict ka va kvs →
      ∀ p ∈ kvs, Produces va p.2 := by
  intro kvs h
  induction kvs with
  | nil => simp
  | cons hd tl ih =>
    cases h with
    | cons _ _ _ _ _ _ hv htl =>
      intro p hp
      rcases List.mem_cons.mp hp with rfl | hmem
      · exact hv
      · exact ih htl p hmem

/-! ## Validation-success helpers for the parse combinators -/

theorem parseElems_isSome (sch : Schema) :
    ∀ (l : List Value), (∀ x ∈ l, (safeParse sch x).isSome = true) →
      (parseElems sch l).isSome = true := by
  intro l
  induction l with
  | nil => intro _; simp [parseElems]
  | cons hd tl ih =>
    intro h
    obtain ⟨d, hd'⟩ := Option.isSome_iff_exists.mp (h hd (List.mem_cons_self hd tl))
    obtain ⟨ds, hds⟩ := Option.isSome_iff_exists.mp
      (ih (fun x hx => h x (List.mem_cons_of_mem hd hx)))
    simp [parseElems, hd', hds]

theorem parseProps_isSome (sch : Schema) :
    ∀ (l : List (String × Value)), (∀ p ∈ l, (safeParse sch p.2).isSome = true) →
      (parseProps sch l).isSome = true := by
  intro l
  induction l with
  | nil => intro _; simp [parseProps]
  | cons hd tl ih =>
    intro h
    obtain ⟨k, v⟩ := hd
    obtain ⟨d, hd'⟩ := Option.isSome_iff_exists.mp (h (k, v) (List.mem_cons_self _ tl))
    obtain ⟨ds, hds⟩ := Option.isSome_iff_exists.mp
      (ih (fun x hx => h x (List.mem_cons_of_mem _ hx)))
    simp [parseProps, hd', hds]

theorem parseEntries_isSome (kSch vSch : Schema) :
    ∀ (l : List (Value × Value)),
      (∀ p ∈ l, (safeParse kSch p.1).isSome = true ∧ (safeParse vSch p.2).isSome = true) →
      (parseEntries kSch vSch l).isSome = true := by
  intro l
  induction l with
  | nil => intro _; simp [parseEntries]
  | cons hd tl ih =>
    intro h
    obtain ⟨k, v⟩ := hd
    obtain ⟨hk, hv⟩ := h (k, v) (List.mem_cons_self _ tl)
    obtain ⟨dk, hdk⟩ := Option.isSome_iff_exists.mp hk
    obtain ⟨dv, hdv⟩ := Option.isSome_iff_exists.mp hv
    obtain ⟨ds, hds⟩ := Option.isSome_iff_exists.mp
      (ih (fun x hx => h x (List.mem_cons_of_mem _ hx)))
    simp [parseEntries, hdk, hdv, hds]

theorem parseItems_isSome :
    ∀ {its : List Schema} {l : List Value},
      List.Forall₂ (fun (o : Schema) (v : Value) => (safeParse o v).isSome = true) its l →
      (parseItems its l).isSome = true := by
  intro its
  induction its with
  | nil =>
    intro l h
    cases h
    simp [parseItems]
  | cons hd tl ih =>
    intro l h
    cases h with
    | cons hhd htl =>
      obtain ⟨d, hd'⟩ := Option.isSome_iff_exists.mp hhd
      obtain ⟨ds, hds⟩ := Option.isSome_iff_exists.mp (ih htl)
      simp [parseItems, hd', hds]

theorem parseFirst_isSome :
    ∀ (os : List Schema) (v : Value),
      (∃ o ∈ os, (safeParse o v).isSome = true) →
      (parseFirst os v).isSome = true := by
  intro os
  induction os with
  | nil => rintro v ⟨o, ho, _⟩; cases ho
  | cons hd tl ih =>
    rintro v ⟨o, ho, hsome⟩
    rcases List.mem_cons.mp ho with rfl | hmem
    · obtain ⟨d, hd'⟩ := Option.isSome_iff_exists.mp hsome
      simp [parseFirst, hd']
    · cases hhd : safeParse hd v with
      | some d => simp [parseFirst, hhd]
      | none =>
        have := ih v ⟨o, hmem, hsome⟩
        simpa [parseFirst, hhd] using this

theorem parseShape_isSome :
    ∀ (shape : List (String × Schema)) (props : List (String × Value)),
      (∀ p ∈ shape, (safeParse p.2 (jsGet props p.1)).isSome = true) →
      (parseShape shape props).isSome = true := by
  intro shape
  induction shape with
  | nil => intro props _; simp [parseShape]
  | cons hd tl ih =>
    intro props h
    obtain ⟨k, sch⟩ := hd
    obtain ⟨d, hd'⟩ := Option.isSome_iff_exists.mp (h (k, sch) (List.mem_cons_self _ tl))
    obtain ⟨ds, hds⟩ := Option.isSome_iff_exists.mp
      (ih props (fun x hx => h x (List.mem_cons_of_mem _ hx)))
    simp [parseShape, hd', hds]

/-- Positional validity plus distinct declared keys turns into validity of
every property lookup on the generated object. -/
theorem forall2_jsGet :
    ∀ {shape : List (String × Schema)} {kvs : List (String × Value)},
      List.Forall₂ (fun (p : String × Schema) (kv : String × Value) =>
        p.1 = kv.1 ∧ (safeParse p.2 kv.2).isSome = true) shape kvs →
      (shape.map Prod.fst).Nodup →
      ∀ p ∈ shape, (safeParse p.2 (jsGet kvs p.1)).isSome = true := by
  intro shape
  induction shape with
  | nil => intro kvs _ _ p hp; cases hp
  | cons hd tl ih =>
    intro kvs hf hnd p hp
    cases hf with
    | cons hhd htl =>
      rename_i kv kvs'
      obtain ⟨hkey, hval⟩ := hhd
      simp only [List.map_cons, List.nodup_cons] at hnd
      rcases List.mem_cons.mp hp with rfl | hmem
      · have : jsGet (kv :: kvs') p.1 = kv.2 := by
          simp [jsGet, List.find?, beq_iff_eq.mpr hkey.symm]
        rw [this]
        exact hval
      · have hkeys : (tl.map Prod.fst) = kvs'.map Prod.fst := by
          clear ih hnd hp hmem
          induction htl with
          | nil => rfl
          | cons h _ ih2 => simp [h.1, ih2]
        have hne : kv.1 ≠ p.1 := by
          intro he
          apply hnd.1
          rw [← hkey] at he
          rw [he]
          exact List.mem_map_of_mem Prod.fst hmem
        have : jsGet (kv :: kvs') p.1 = jsGet kvs' p.1 := by
          simp [jsGet, List.find?, beq_eq_false_iff_ne.mpr hne]
        rw [this]
        exact ih htl hnd.2 p hmem

/-! ## Map and set construction preserve element validity -/

theorem jsMapSetEntry_preserve {P Q : Value → Prop}
    {m : List (Value × Value)} {k v : Value}
    (hm : ∀ p ∈ m, P p.1 ∧ Q p.2) (hk : P k) (hv : Q v) :
    ∀ p ∈ jsMapSetEntry m k v, P p.1 ∧ Q p.2 := by
  intro p hp
  unfold jsMapSetEntry at hp
  by_cases hany : m.any (fun e => e.1.beq k) = true
  · rw [if_pos hany] at hp
    obtain ⟨q, hq, hqe⟩ := List.mem_map.mp hp
    by_cases hb : q.1.beq k = true
    · rw [if_pos hb] at hqe
      subst hqe
      exact ⟨(hm q hq).1, hv⟩
    · rw [if_neg hb] at hqe
      subst hqe
      exact hm q hq
  · rw [if_neg hany] at hp
    rcases List.mem_append.mp hp with hmem | hone
    · exact hm p hmem
    · rcases List.mem_singleton.mp hone with rfl
      exact ⟨hk, hv⟩

theorem jsNewMapStep_preserve {P Q : Value → Prop}
    {m : List (Value × Value)} {e : Value}
    (hm : ∀ p ∈ m, P p.1 ∧ Q p.2)
    (he : ∀ k v, e = .arr [k, v] → P k ∧ Q v) :
    ∀ p ∈ jsNewMapStep m e, P p.1 ∧ Q p.2 := by
  match e with
  | .arr [k, v] =>
    have := he k v rfl
    exact jsMapSetEntry_preserve hm this.1 this.2
  | .arr [] => exact hm
  | .arr [_] => exact hm
  | .arr (_ :: _ :: _ :: _) => exact hm
  | .str _ => exact hm
  | .num _ => exact hm
  | .inf => exact hm
  | .bigint _ => exact hm
  | .bool _ => exact hm
  | .date _ => exact hm
  | .undef => exact hm
  | .null => exact hm
  | .obj _ => exact hm
  | .vmap _ => exact hm
  | .vset _ => exact hm
  | .func _ => exact hm
  | .promise _ => exact hm

theorem foldl_jsNewMapStep_preserve {P Q : Value → Prop} :
    ∀ (entries : List Value) (acc : List (Value × Value)),
      (∀ p ∈ acc, P p.1 ∧ Q p.2) →
      (∀ e ∈ entries, ∀ k v, e = .arr [k, v] → P k ∧ Q v) →
      ∀ p ∈ entries.foldl jsNewMapStep acc, P p.1 ∧ Q p.2 := by
  intro entries
  induction entries with
  | nil => intro acc hacc _; simpa using hacc
  | cons e rest ih =>
    intro acc hacc hentries
    simp only [List.foldl_cons]
    exact ih (jsNewMapStep acc e)
      (jsNewMapStep_preserve hacc (hentries e (List.mem_cons_self e rest)))
      (fun x hx => hentries x (List.mem_cons_of_mem e hx))

theorem jsSetInsert_preserve {P : Value → Prop} {l : List Value} {v : Value}
    (hl : ∀ x ∈ l, P x) (hv : P v) : ∀ x ∈ jsSetInsert l v, P x := by
  intro x hx
  unfold jsSetInsert at hx
  by_cases hany : l.any (fun e => e.beq v) = true
  · rw [if_pos hany] at hx
    exact hl x hx
  · rw [if_neg hany] at hx
    rcases List.mem_append.mp hx with hmem | hone
    · exact hl x hmem
    · rcases List.mem_singleton.mp hone with rfl
      exact hv

theorem foldl_jsSetInsert_preserve {P : Value → Prop} :
    ∀ (elems : List Value) (acc : List Value),
      (∀ x ∈ acc, P x) → (∀ x ∈ elems, P x) →
      ∀ x ∈ elems.foldl jsSetInsert acc, P x := by
  intro elems
  induction elems with
  | nil => intro acc hacc _; simpa using hacc
  | cons e rest ih =>
    intro acc hacc helems
    simp only [List.foldl_cons]
    exact ih (jsSetInsert acc e)
      (jsSetInsert_preserve hacc (helems e (List.mem_cons_self e rest)))
      (fun x hx => helems x (List.mem_cons_of_mem e hx))

/-! ## Primitive builder soundness -/

/-- Without a format check, the string builder's loop only tightens the
accumulated length bounds, so a produced value satisfies every check it
scanned (or, when a regex was seen, the final filter guarantees validation
outright). -/
theorem stringLoop_sound (schema : Schema) (path : String) :
    ∀ (cs : List StringCheck) (minA : Nat) (maxA : Option Nat) (hr : Bool) (v : Value),
      cs.any isFormatCheck = false →
      Produces (buildStringLoop schema path cs minA maxA hr) v →
      (safeParse schema v).isSome = true ∨
      (hr = false ∧ ∃ s, v = .str s ∧ minA ≤ s.length ∧
        (∀ m, maxA = some m → s.length ≤ m) ∧
        ∀ c ∈ cs, passStringCheck s c = true) := by
  intro cs
  induction cs with
  | nil =>
    intro minA maxA hr v _ hprod
    cases hr with
    | true =>
      simp only [buildStringLoop, filterArbitraryBySchema, if_true] at hprod
      cases hprod with
      | filtered _ _ _ _ _ _ hpred => exact Or.inl hpred
    | false =>
      simp only [buildStringLoop, Bool.false_eq_true, if_false] at hprod
      cases hprod with
      | string _ _ s h1 h2 =>
        refine Or.inr ⟨rfl, s, rfl, h1, ?_, by simp⟩
        intro m hm
        rw [hm] at h2
        exact h2
  | cons c rest ih =>
    intro minA maxA hr v hfmt hprod
    simp only [List.any_cons, Bool.or_eq_false_iff] at hfmt
    cases c with
    | min n =>
      simp only [buildStringLoop] at hprod
      rcases ih (max minA n) maxA hr v hfmt.2 hprod with hl | ⟨hhr, s, rfl, h1, h2, h3⟩
      · exact Or.inl hl
      · refine Or.inr ⟨hhr, s, rfl, le_trans (le_max_left _ _) h1, h2, ?_⟩
        intro ck hck
        rcases List.mem_cons.mp hck with rfl | hmem
        · simp only [passStringCheck]
          have : n ≤ s.length := le_trans (le_max_right _ _) h1
          simpa using this
        · exact h3 ck hmem
    | max n =>
      simp only [buildStringLoop] at hprod
      cases maxA with
      | none =>
        rcases ih minA (some n) hr v hfmt.2 hprod with hl | ⟨hhr, s, rfl, h1, h2, h3⟩
        · exact Or.inl hl
        · have hlen : s.length ≤ n := h2 n rfl
          refine Or.inr ⟨hhr, s, rfl, h1, ?_, ?_⟩
          · intro m hm
            cases hm
          · intro ck hck
            rcases List.mem_cons.mp hck with rfl | hmem
            · simp only [passStringCheck]
              simpa using hlen
            · exact h3 ck hmem
      | some m0 =>
        rcases ih minA (some (min m0 n)) hr v hfmt.2 hprod with hl | ⟨hhr, s, rfl, h1, h2, h3⟩
        · exact Or.inl hl
        · have hlen : s.length ≤ min m0 n := h2 _ rfl
          refine Or.inr ⟨hhr, s, rfl, h1, ?_, ?_⟩
          · intro m hm
            cases hm
            exact le_trans hlen (min_le_left _ _)
          · intro ck hck
            rcases List.mem_cons.mp hck with rfl | hmem
            · simp only [passStringCheck]
              simpa using le_trans hlen (min_le_right _ _)
            · exact h3 ck hmem
    | uuid => simp [isFormatCheck] at hfmt
    | email => simp [isFormatCheck] at hfmt
    | url => simp [isFormatCheck] at hfmt
    | regex t =>
      simp only [buildStringLoop] at hprod
      rcases ih minA maxA true v hfmt.2 hprod with hl | ⟨hhr, _⟩
      · exact Or.inl hl
      · cases hhr

/-- The older number builder's loop narrows the accumulated range and marks
integrality; a produced value is a number within the accumulated range that
passes every scanned check (and is an integer whenever the flag was set). -/
theorem numberLoop_sound :
    ∀ (cs : List NumberCheck) (mnA mxA : Rat) (isInt : Bool) (v : Value),
      cs.all isOldNumberCheck = true →
      Produces (buildNumberLoop cs mnA mxA isInt) v →
      ∃ q : Rat, v = .num q ∧ mnA ≤ q ∧ q ≤ mxA ∧
        (isInt = true → ∃ n : Int, q = n) ∧
        ∀ c ∈ cs, passNumberCheck (some q) c = true := by
  intro cs
  induction cs with
  | nil =>
    intro mnA mxA isInt v _ hprod
    cases isInt with
    | true =>
      simp only [buildNumberLoop, if_true] at hprod
      cases hprod with
      | integer _ _ n h1 h2 =>
        exact ⟨n, rfl, h1, h2, fun _ => ⟨n, rfl⟩, by simp⟩
    | false =>
      simp only [buildNumberLoop, Bool.false_eq_true, if_false] at hprod
      cases hprod with
      | double _ _ q h1 h2 =>
        exact ⟨q, rfl, h1, h2, by simp, by simp⟩
  | cons c rest ih =>
    intro mnA mxA isInt v hold hprod
    simp only [List.all_cons, Bool.and_eq_true] at hold
    cases c with
    | min n inclusive =>
      simp only [buildNumberLoop] at hprod
      obtain ⟨q, rfl, h1, h2, hint, hchecks⟩ := ih _ mxA isInt v hold.2 hprod
      refine ⟨q, rfl, le_trans (le_max_left _ _) h1, h2, hint, ?_⟩
      intro ck hck
      rcases List.mem_cons.mp hck with rfl | hmem
      · have hn : (if inclusive then n else n + 1 / 1000) ≤ q :=
          le_trans (le_max_right _ _) h1
        cases inclusive with
        | true => simp only [passNumberCheck, if_true]; simpa using hn
        | false =>
          simp only [if_false, Bool.false_eq_true] at hn
          simp only [passNumberCheck, Bool.false_eq_true, if_false]
          have : n < q := lt_of_lt_of_le (by linarith) hn
          simpa using this
      · exact hchecks ck hmem
    | max n inclusive =>
      simp only [buildNumberLoop] at hprod
      obtain ⟨q, rfl, h1, h2, hint, hchecks⟩ := ih mnA _ true v hold.2 hprod
      refine ⟨q, rfl, h1, le_trans h2 (min_le_left _ _), fun _ => hint rfl, ?_⟩
      intro ck hck
      rcases List.mem_cons.mp hck with rfl | hmem
      · have hn : q ≤ (if inclusive then n else n - 1 / 1000) :=
          le_trans h2 (min_le_right _ _)
        cases inclusive with
        | true => simp only [passNumberCheck, if_true]; simpa using hn
        | false =>
          simp only [if_false, Bool.false_eq_true] at hn
          simp only [passNumberCheck, Bool.false_eq_true, if_false]
          have : q < n := lt_of_le_of_lt hn (by linarith)
          simpa using this
      · exact hchecks ck hmem
    | int =>
      simp only [buildNumberLoop] at hprod
      obtain ⟨q, rfl, h1, h2, hint, hchecks⟩ := ih mnA mxA true v hold.2 hprod
      obtain ⟨n, rfl⟩ := hint rfl
      refine ⟨n, rfl, h1, h2, fun _ => ⟨n, rfl⟩, ?_⟩
      intro ck hck
      rcases List.mem_cons.mp hck with rfl | hmem
      · simp [passNumberCheck, Rat.den_intCast]
      · exact hchecks ck hmem
    | finite => simp [isOldNumberCheck] at hold
    | multipleOf _ => simp [isOldNumberCheck] at hold

/-! ## Wrapper-kind validation helpers -/

theorem safeParse_optional_isSome (i : Nat) (inner : Schema) (v : Value)
    (h : v = .undef ∨ (safeParse inner v).isSome = true) :
    (safeParse (.optional i inner) v).isSome = true := by
  rcases h with rfl | h
  · simp [safeParse]
  · cases v <;> simp only [safeParse] <;> first | rfl | exact h

theorem safeParse_nullable_isSome (i : Nat) (inner : Schema) (v : Value)
    (h : v = .null ∨ (safeParse inner v).isSome = true) :
    (safeParse (.nullable i inner) v).isSome = true := by
  rcases h with rfl | h
  · simp [safeParse]
  · cases v <;> simp only [safeParse] <;> first | rfl | exact h

theorem safeParse_defaulted_isSome (i : Nat) (inner : Schema) (dv v : Value)
    (hdv : (safeParse inner dv).isSome = true)
    (h : v = .undef ∨ (safeParse inner v).isSome = true) :
    (safeParse (.defaulted i inner dv) v).isSome = true := by
  rcases h with rfl | h
  · simp only [safeParse]
    exact hdv
  · cases v <;> simp only [safeParse] <;> first | exact hdv | exact h

/-- With no overrides registered, compilation is exactly the dispatcher. -/
theorem inputWithPath_empty (s : Schema) (path : String) :
    inputWithPath [] s path = arbitraryBuilder [] s path := by
  rw [inputWithPath]
  rfl

/-- Unfolding of `safeParse` on the array constructor. -/
theorem safeParse_array_eq (i : Nat) (mn mx : Option Nat) (elem : Schema)
    (l : List Value) :
    safeParse (.array i mn mx elem) (.arr l) =
      if ((match mn with | some m => decide (m ≤ l.length) | none => true)
          && (match mx with | some m => decide (l.length ≤ m) | none => true)) then
        (parseElems elem l).map Value.arr else none := by
  rw [safeParse.eq_def]

mutual

/-- Soundness of the dispatcher: a value produced by a compiled arbitrary
validates against its schema, for well-formed schemas (see
`wellFormedForGeneration`). -/
theorem buildSound :
    ∀ (s : Schema) (path : String) (arb : Arb) (v : Value),
      wellFormedForGeneration s = true →
      arbitraryBuilder [] s path = .ok arb →
      Produces arb v →
      (safeParse s v).isSome = true
  | .string i cs, path, arb, v, hwf, hok, hprod => by
      simp only [arbitraryBuilder.eq_def] at hok
      cases hok
      simp only [wellFormedForGeneration, stringChecksOk] at hwf
      by_cases hfmt : cs.any isFormatCheck = true
      · have hlen : cs.length = 1 := by
          rw [hfmt] at hwf
          simpa using hwf
        obtain ⟨c, rfl⟩ : ∃ c, cs = [c] := by
          cases cs with
          | nil => simp at hlen
          | cons a t =>
            cases t with
            | nil => exact ⟨a, rfl⟩
            | cons b t2 => simp at hlen
        have hc : isFormatCheck c = true := by simpa using hfmt
        cases c with
        | uuid =>
          simp only [ZodStringBuilder, buildStringLoop] at hprod
          cases hprod with
          | uuid s hs =>
            simp only [safeParse]
            have hall : [StringCheck.uuid].all (passStringCheck s) = true := by
              simp [passStringCheck, hs]
            rw [hall]
            rfl
        | email =>
          simp only [ZodStringBuilder, buildStringLoop] at hprod
          cases hprod with
          | email s hs =>
            simp only [safeParse]
            have hall : [StringCheck.email].all (passStringCheck s) = true := by
              simp [passStringCheck, hs]
            rw [hall]
            rfl
        | url =>
          simp only [ZodStringBuilder, buildStringLoop] at hprod
          cases hprod with
          | webUrl s hs =>
            simp only [safeParse]
            have hall : [StringCheck.url].all (passStringCheck s) = true := by
              simp [passStringCheck, hs]
            rw [hall]
            rfl
        | min n => simp [isFormatCheck] at hc
        | max n => simp [isFormatCheck] at hc
        | regex t => simp [isFormatCheck] at hc
      · have hfmt' : cs.any isFormatCheck = false := by
          cases h : cs.any isFormatCheck with
          | true => exact absurd h hfmt
          | false => rfl
        rcases stringLoop_sound (.string i cs) path cs 0 none false v hfmt'
            (by simpa [ZodStringBuilder] using hprod) with hl | ⟨_, s, rfl, _, _, hchecks⟩
        · exact hl
        · simp only [safeParse]
          have hall : cs.all (passStringCheck s) = true :=
            List.all_eq_true.mpr hchecks
          rw [hall]
          rfl
  | .number i cs, path, arb, v, hwf, hok, hprod => by
      simp only [arbitraryBuilder.eq_def] at hok
      cases hok
      simp only [wellFormedForGeneration] at hwf
      obtain ⟨q, rfl, _, _, _, hchecks⟩ :=
        numberLoop_sound cs (-(2 ^ 64)) (2 ^ 64) false v hwf
          (by simpa [ZodNumberBuilder] using hprod)
      simp only [safeParse]
      have hall : cs.all (passNumberCheck (some q)) = true :=
        List.all_eq_true.mpr hchecks
      rw [hall]
      rfl
  | .bigint i, path, arb, v, hwf, hok, hprod => by
      simp only [arbitraryBuilder.eq_def] at hok
      cases hok
      cases hprod with
      | bigint n => simp [safeParse]
  | .boolean i, path, arb, v, hwf, hok, hprod => by
      simp only [arbitraryBuilder.eq_def] at hok
      cases hok
      cases hprod with
      | boolean b => simp [safeParse]
  | .date i, path, arb, v, hwf, hok, hprod => by
      simp only [arbitraryBuilder.eq_def] at hok
      cases hok
      cases hprod with
      | date t => simp [safeParse]
  | .undef i, path, arb, v, hwf, hok, hprod => by
      simp only [arbitraryBuilder.eq_def] at hok
      cases hok
      cases hprod
      simp [safeParse]
  | .null i, path, arb, v, hwf, hok, hprod => by
      simp only [arbitraryBuilder.eq_def] at hok
      cases hok
      cases hprod
      simp [safeParse]
  | .void i, path, arb, v, hwf, hok, hprod => by
      simp only [arbitraryBuilder.eq_def] at hok
      cases hok
      cases hprod
      simp [safeParse]
  | .any i, path, arb, v, hwf, hok, hprod => by
      simp only [arbitraryBuilder.eq_def] at hok
      cases hok
      simp [safeParse]
  | .unknown i, path, arb, v, hwf, hok, hprod => by
      simp only [arbitraryBuilder.eq_def] at hok
      cases hok
      simp [safeParse]
  | .literal i litv, path, arb, v, hwf, hok, hprod => by
      simp only [arbitraryBuilder.eq_def] at hok
      cases hok
      cases hprod
      simp [safeParse, Value.beq_refl]
  | .enum i vs, path, arb, v, hwf, hok, hprod => by
      simp only [arbitraryBuilder.eq_def] at hok
      cases hok
      cases hprod with
      | oneof _ a _ ha hav =>
        obtain ⟨s0, hs0, rfl⟩ := List.mem_map.mp ha
        cases hav
        simp only [safeParse]
        have hc : vs.contains s0 = true := by simpa using hs0
        rw [hc]
        rfl
  | .nativeEnum i obj, path, arb, v, hwf, hok, hprod => by
      simp only [arbitraryBuilder.eq_def] at hok
      cases hok
      cases hprod with
      | oneof _ a _ ha hav =>
        obtain ⟨ev, hev, rfl⟩ := List.mem_map.mp ha
        cases hav
        simp only [safeParse]
        have hc : (getValidEnumValues obj).any
            (fun x => x.toValue.beq ev.toValue) = true :=
          List.any_eq_true.mpr ⟨ev, hev, Value.beq_refl _⟩
        rw [hc]
        rfl
  | .array i mn mx elem, path, arb, v, hwf, hok, hprod => by
      simp only [arbitraryBuilder.eq_def] at hok
      cases hch : inputWithPath [] elem (path ++ "[*]") with
      | error e => rw [hch] at hok; cases hok
      | ok e =>
        rw [hch] at hok
        rw [inputWithPath_empty] at hch
        cases hok
        simp only [wellFormedForGeneration] at hwf
        cases hprod with
        | array _ _ _ l hmn hmx hall =>
          have helems : ∀ x ∈ l, (safeParse elem x).isSome = true :=
            fun x hx => buildSound elem (path ++ "[*]") e x hwf hch
              (producesAll_mem hall x hx)
          obtain ⟨ds, hds⟩ := Option.isSome_iff_exists.mp (parseElems_isSome elem l helems)
          rw [safeParse_array_eq]
          cases mn with
          | none =>
            cases mx with
            | none => simp [hds]
            | some m2 =>
              have hx : l.length ≤ m2 := le_trans hmx (min_le_left _ _)
              simp [hds, hx]
          | some m =>
            have hn : m ≤ l.length := hmn
            cases mx with
            | none => simp [hds, hn]
            | some m2 =>
              have hx : l.length ≤ m2 := le_trans hmx (min_le_left _ _)
              simp [hds, hn, hx]
  | .object i shape, path, arb, v, hwf, hok, hprod => by
      simp only [arbitraryBuilder.eq_def] at hok
      cases hch : buildShape [] shape path with
      | error e => rw [hch] at hok; cases hok
      | ok props =>
        rw [hch] at hok
        cases hok
        simp only [wellFormedForGeneration, Bool.and_eq_true] at hwf
        have hnd : (shape.map Prod.fst).Nodup := of_decide_eq_true hwf.1
        cases hprod with
        | record _ kvs hpp =>
          have hf2 := buildShapeSound shape path props kvs hwf.2 hch hpp
          obtain ⟨ds, hds⟩ := Option.isSome_iff_exists.mp
            (parseShape_isSome shape kvs (forall2_jsGet hf2 hnd))
          simp only [safeParse]
          simp [hds]
  | .union i os, path, arb, v, hwf, hok, hprod => by
      simp only [arbitraryBuilder.eq_def] at hok
      cases hch : buildOptions [] os path with
      | error e => rw [hch] at hok; cases hok
      | ok alts =>
        rw [hch] at hok
        cases hok
        simp only [wellFormedForGeneration] at hwf
        cases hprod with
        | oneof _ a _ ha hav =>
          simp only [safeParse]
          exact parseFirst_isSome os v (buildOptionsSound os path alts a v hwf hch ha hav)
  | .tuple i its, path, arb, v, hwf, hok, hprod => by
      simp only [arbitraryBuilder.eq_def] at hok
      cases hch : buildItems [] its path 0 with
      | error e => rw [hch] at hok; cases hok
      | ok arbs =>
        rw [hch] at hok
        cases hok
        simp only [wellFormedForGeneration] at hwf
        cases hprod with
        | tuple _ l hpl =>
          have hf2 := buildItemsSound its path 0 arbs l hwf hch hpl
          have hlen : l.length = its.length := hf2.length_eq.symm
          obtain ⟨ds, hds⟩ := Option.isSome_iff_exists.mp (parseItems_isSome hf2)
          simp only [safeParse]
          rw [show (l.length == its.length) = true by simpa using hlen]
          simp [hds]
  | .record i valueType, path, arb, v, hwf, hok, hprod => by
      simp only [arbitraryBuilder.eq_def] at hok
      cases hch : inputWithPath [] valueType (path ++ "[*]") with
      | error e => rw [hch] at hok; cases hok
      | ok varb =>
        rw [hch] at hok
        rw [inputWithPath_empty] at hch
        cases hok
        simp only [wellFormedForGeneration] at hwf
        cases hprod with
        | dictionary _ _ kvs hdict =>
          have hvals : ∀ p ∈ kvs, (safeParse valueType p.2).isSome = true :=
            fun p hp => buildSound valueType (path ++ "[*]") varb p.2 hwf hch
              (producesDict_values hdict p hp)
          obtain ⟨ds, hds⟩ := Option.isSome_iff_exists.mp
            (parseProps_isSome valueType kvs hvals)
          simp only [safeParse]
          simp [hds]
  | .map i keyType valueType, path, arb, v, hwf, hok, hprod => by
      simp only [arbitraryBuilder.eq_def] at hok
      cases hchk : inputWithPath [] keyType (path ++ ".(key)") with
      | error e => rw [hchk] at hok; cases hok
      | ok karb =>
        rw [hchk] at hok
        rw [inputWithPath_empty] at hchk
        cases hchv : inputWithPath [] valueType (path ++ ".(value)") with
        | error e => rw [hchv] at hok; cases hok
        | ok varb =>
          rw [hchv] at hok
          rw [inputWithPath_empty] at hchv
          cases hok
          simp only [wellFormedForGeneration, Bool.and_eq_true] at hwf
          cases hprod with
          | mapped _ _ u hu =>
            cases hu with
            | array _ _ _ entries _ _ hall =>
              have helem : ∀ e ∈ entries, ∀ k' v', e = .arr [k', v'] →
                  (safeParse keyType k').isSome = true ∧
                  (safeParse valueType v').isSome = true := by
                intro e he k' v' heq
                have hp := producesAll_mem hall e he
                subst heq
                cases hp with
                | tuple _ _ hpl =>
                  cases hpl with
                  | cons _ _ _ _ hk htl =>
                    cases htl with
                    | cons _ _ _ _ hv hnil =>
                      cases hnil
                      exact ⟨buildSound keyType (path ++ ".(key)") karb k'
                          hwf.1 hchk hk,
                        buildSound valueType (path ++ ".(value)") varb v'
                          hwf.2 hchv hv⟩
              have hfold := foldl_jsNewMapStep_preserve
                (P := fun x => (safeParse keyType x).isSome = true)
                (Q := fun x => (safeParse valueType x).isSome = true)
                entries [] (by simp) helem
              obtain ⟨ds, hds⟩ := Option.isSome_iff_exists.mp
                (parseEntries_isSome keyType valueType _ hfold)
              simp only [jsNewMap, safeParse]
              simp [hds]
  | .set i valueType, path, arb, v, hwf, hok, hprod => by
      simp only [arbitraryBuilder.eq_def] at hok
      cases hch : inputWithPath [] valueType (path ++ ".(value)") with
      | error e => rw [hch] at hok; cases hok
      | ok varb =>
        rw [hch] at hok
        rw [inputWithPath_empty] at hch
        cases hok
        simp only [wellFormedForGeneration] at hwf
        cases hprod with
        | mapped _ _ u hu =>
          cases hu with
          | setArb _ elems hall =>
            have helems : ∀ x ∈ elems, (safeParse valueType x).isSome = true :=
              fun x hx => buildSound valueType (path ++ ".(value)") varb x hwf hch
                (producesAll_mem hall x hx)
            have hfold := foldl_jsSetInsert_preserve
              (P := fun x => (safeParse valueType x).isSome = true)
              elems [] (by simp) helems
            obtain ⟨ds, hds⟩ := Option.isSome_iff_exists.mp
              (parseElems_isSome valueType _ hfold)
            simp only [jsNewSet, safeParse]
            simp [hds]
  | .function i returns, path, arb, v, hwf, hok, hprod => by
      simp only [arbitraryBuilder.eq_def] at hok
      cases hch : inputWithPath [] returns (path ++ ".(return type)") with
      | error e => rw [hch] at hok; cases hok
      | ok rarb =>
        rw [hch] at hok
        cases hok
        cases hprod with
        | mapped _ _ u hu => simp [safeParse]
  | .promise i inner, path, arb, v, hwf, hok, hprod => by
      simp only [arbitraryBuilder.eq_def] at hok
      cases hch : inputWithPath [] inner (path ++ ".(resolved type)") with
      | error e => rw [hch] at hok; cases hok
      | ok iarb =>
        rw [hch] at hok
        cases hok
        cases hprod with
        | mapped _ _ u hu => simp [safeParse]
  | .optional i inner, path, arb, v, hwf, hok, hprod => by
      simp only [arbitraryBuilder.eq_def] at hok
      cases hch : inputWithPath [] inner path with
      | error e => rw [hch] at hok; cases hok
      | ok iarb =>
        rw [hch] at hok
        rw [inputWithPath_empty] at hch
        cases hok
        simp only [wellFormedForGeneration] at hwf
        cases hprod with
        | optionNil _ _ _ => exact safeParse_optional_isSome i inner _ (Or.inl rfl)
        | optionVal _ _ _ _ hv =>
          exact safeParse_optional_isSome i inner v
            (Or.inr (buildSound inner path iarb v hwf hch hv))
  | .nullable i inner, path, arb, v, hwf, hok, hprod => by
      simp only [arbitraryBuilder.eq_def] at hok
      cases hch : inputWithPath [] inner path with
      | error e => rw [hch] at hok; cases hok
      | ok iarb =>
        rw [hch] at hok
        rw [inputWithPath_empty] at hch
        cases hok
        simp only [wellFormedForGeneration] at hwf
        cases hprod with
        | optionNil _ _ _ => exact safeParse_nullable_isSome i inner _ (Or.inl rfl)
        | optionVal _ _ _ _ hv =>
          exact safeParse_nullable_isSome i inner v
            (Or.inr (buildSound inner path iarb v hwf hch hv))
  | .defaulted i inner dv, path, arb, v, hwf, hok, hprod => by
      simp only [arbitraryBuilder.eq_def] at hok
      cases hch : inputWithPath [] inner path with
      | error e => rw [hch] at hok; cases hok
      | ok iarb =>
        rw [hch] at hok
        rw [inputWithPath_empty] at hch
        cases hok
        simp only [wellFormedForGeneration, Bool.and_eq_true] at hwf
        cases hprod with
        | oneof _ a _ ha hav =>
          rcases List.mem_cons.mp ha with rfl | ha2
          · cases hav
            exact safeParse_defaulted_isSome i inner dv _ hwf.1 (Or.inl rfl)
          · have heq : a = iarb := List.mem_singleton.mp ha2
            rw [heq] at hav
            exact safeParse_defaulted_isSome i inner dv v hwf.1
              (Or.inr (buildSound inner path iarb v hwf.2 hch hav))
  | .effects i inner eff, path, arb, v, hwf, hok, hprod => by
      simp only [arbitraryBuilder.eq_def] at hok
      cases hch : inputWithPath [] inner path with
      | error e => rw [hch] at hok; cases hok
      | ok iarb =>
        rw [hch] at hok
        cases hok
        cases hprod with
        | filtered _ _ _ _ _ _ hpred => exact hpred
  | .intersection i, path, arb, v, hwf, hok, hprod => by
      simp only [arbitraryBuilder.eq_def] at hok
      cases hok
  | .lazy i, path, arb, v, hwf, hok, hprod => by
      simp only [arbitraryBuilder.eq_def] at hok
      cases hok
  | .never i, path, arb, v, hwf, hok, hprod => by
      simp only [arbitraryBuilder.eq_def] at hok
      cases hok
  | .foreign i n, path, arb, v, hwf, hok, hprod => by
      simp only [arbitraryBuilder.eq_def] at hok
      cases hok
termination_by s _ _ _ _ _ _ => sizeOf s

theorem buildShapeSound :
    ∀ (shape : List (String × Schema)) (path : String)
      (props : List (String × Arb)) (kvs : List (String × Value)),
      wfShape shape = true →
      buildShape [] shape path = .ok props →
      ProducesProps props kvs →
      List.Forall₂ (fun (p : String × Schema) (kv : String × Value) =>
        p.1 = kv.1 ∧ (safeParse p.2 kv.2).isSome = true) shape kvs
  | [], path, props, kvs, hwf, hok, hpp => by
      simp only [buildShape] at hok
      cases hok
      cases hpp
      exact List.Forall₂.nil
  | (k, sch) :: rest, path, props, kvs, hwf, hok, hpp => by
      simp only [buildShape] at hok
      cases hch : inputWithPath [] sch (path ++ "." ++ k) with
      | error e => rw [hch] at hok; cases hok
      | ok a =>
        rw [hch] at hok
        rw [inputWithPath_empty] at hch
        cases hrest : buildShape [] rest path with
        | error e => rw [hrest] at hok; cases hok
        | ok props' =>
          rw [hrest] at hok
          cases hok
          simp only [wfShape, Bool.and_eq_true] at hwf
          cases hpp with
          | cons _ _ v0 _ kvs' hv hpp' =>
            exact List.Forall₂.cons
              ⟨rfl, buildSound sch (path ++ "." ++ k) a v0 hwf.1 hch hv⟩
              (buildShapeSound rest path props' kvs' hwf.2 hrest hpp')
termination_by shape _ _ _ _ _ _ => sizeOf shape

theorem buildOptionsSound :
    ∀ (os : List Schema) (path : String) (alts : List Arb) (a : Arb) (v : Value),
      wfList os = true →
      buildOptions [] os path = .ok alts →
      a ∈ alts → Produces a v →
      ∃ o ∈ os, (safeParse o v).isSome = true
  | [], path, alts, a, v, hwf, hok, ha, hav => by
      simp only [buildOptions] at hok
      cases hok
      cases ha
  | o :: rest, path, alts, a, v, hwf, hok, ha, hav => by
      simp only [buildOptions] at hok
      cases hch : inputWithPath [] o path with
      | error e => rw [hch] at hok; cases hok
      | ok x =>
        rw [hch] at hok
        rw [inputWithPath_empty] at hch
        cases hrest : buildOptions [] rest path with
        | error e => rw [hrest] at hok; cases hok
        | ok alts' =>
          rw [hrest] at hok
          cases hok
          simp only [wfList, Bool.and_eq_true] at hwf
          rcases List.mem_cons.mp ha with rfl | hmem
          · exact ⟨o, List.mem_cons_self o rest,
              buildSound o path a v hwf.1 hch hav⟩
          · obtain ⟨o', ho', hsome⟩ :=
              buildOptionsSound rest path alts' a v hwf.2 hrest hmem hav
            exact ⟨o', List.mem_cons_of_mem o ho', hsome⟩
termination_by os _ _ _ _ _ _ _ _ => sizeOf os

theorem buildItemsSound :
    ∀ (its : List Schema) (path : String) (index : Nat)
      (arbs : List Arb) (l : List Value),
      wfList its = true →
      buildItems [] its path index = .ok arbs →
      ProducesList arbs l →
      List.Forall₂ (fun (o : Schema) (v : Value) => (safeParse o v).isSome = true) its l
  | [], path, index, arbs, l, hwf, hok, hpl => by
      simp only [buildItems] at hok
      cases hok
      cases hpl
      exact List.Forall₂.nil
  | o :: rest, path, index, arbs, l, hwf, hok, hpl => by
      simp only [buildItems] at hok
      cases hch : inputWithPath [] o (path ++ "[" ++ toString index ++ "]") with
      | error e => rw [hch] at hok; cases hok
      | ok a =>
        rw [hch] at hok
        rw [inputWithPath_empty] at hch
        cases hrest : buildItems [] rest path (index + 1) with
        | error e => rw [hrest] at hok; cases hok
        | ok arbs' =>
          rw [hrest] at hok
          cases hok
          simp only [wfList, Bool.and_eq_true] at hwf
          cases hpl with
          | cons _ v0 _ l' hv hpl' =>
            exact List.Forall₂.cons
              (buildSound o (path ++ "[" ++ toString index ++ "]") a v0 hwf.1 hch hv)
              (buildItemsSound rest path (index + 1) arbs' l' hwf.2 hrest hpl')
termination_by its _ _ _ _ _ _ _ => sizeOf its

end

/-! ## C1: soundness of generated values -/

/-- C1 (corrected): for every supported schema kind whose checks the
generator actually honours (`wellFormedForGeneration`: string format checks
stand alone, number checks are those the older builder handles, object keys
are distinct, defaults validate), every value produced by the arbitrary
returned by `inputOf` passes the schema's own validation. The restriction is
necessary: `claim_C1_counterexample` exhibits a supported schema —
`z.string().max(5).uuid()` — whose generator emits values rejected by
`safeParse`, because the `ZodString` builder returns the dedicated format
generator as soon as it meets a format check, discarding the `max` bound. -/
theorem claim_C1_generated_values_validate (s : Schema) (arb : Arb) (v : Value)
    (hwf : wellFormedForGeneration s = true)
    (hok : inputOf [] s = .ok arb)
    (hprod : Produces arb v) :
    (safeParse s v).isSome = true := by
  rw [inputOf, inputWithPath_empty] at hok
  exact buildSound s "" arb v hwf hok hprod

/-- Witness for C1: the boolean schema compiles to `fc.boolean()`, and the
generated value `true` validates. -/
theorem claim_C1_generated_values_validate_witness :
    (safeParse (.boolean 7) (.bool true)).isSome = true :=
  claim_C1_generated_values_validate (.boolean 7) .fcBoolean (.bool true)
    (by simp [wellFormedForGeneration])
    (by rw [inputOf, inputWithPath_empty]; simp only [arbitraryBuilder.eq_def])
    (Produces.boolean true)

/-- Counterexample to C1 as stated: `z.string().max(5).uuid()` is a
supported schema, its compiled arbitrary is the plain UUID generator, that
generator produces the 36-character nil UUID, and the schema's own
validation rejects that string (it violates the `max 5` check). -/
theorem claim_C1_counterexample :
    inputOf [] (.string 0 [.max 5, .uuid]) = .ok .fcUuid
    ∧ Produces .fcUuid (.str "00000000-0000-0000-0000-000000000000")
    ∧ safeParse (.string 0 [.max 5, .uuid])
        (.str "00000000-0000-0000-0000-000000000000") = none := by
  refine ⟨?_, ?_, ?_⟩
  · rw [inputOf, inputWithPath_empty]
    simp only [arbitraryBuilder.eq_def, ZodStringBuilder, buildStringLoop]
  · exact Produces.uuid _ (by decide)
  · have h : ([StringCheck.max 5, StringCheck.uuid].all
        (passStringCheck "00000000-0000-0000-0000-000000000000")) = false := by
      decide
    simp only [safeParse, h, Bool.false_eq_true, if_false]
